import Mathlib

/-!
Shallow embedding of `solver.py` (rocket_science): a branch-and-bound planner
over integer resource vectors.  Python dicts `{kind: quantity}` are modelled as
association lists `List (Char × Int)` (insertion-ordered, first-match lookup);
a Python `KeyError` / `TypeError` / `ZeroDivisionError` is modelled as `none`
in an `Option`-valued result.
-/

set_option maxRecDepth 4000

namespace RocketSolver

/-- Python dict from resource kind (single letter) to integer quantity,
as an insertion-ordered association list (`Resources.lookup` in the source). -/
abbrev RDict := List (Char × Int)

/-- First-match lookup, `d[k]` returning `none` for a `KeyError`. -/
def findVal (d : RDict) (k : Char) : Option Int :=
  match d with
  | [] => none
  | (k', v) :: rest => if k' = k then some v else findVal rest k

/-- Key membership test, Python `k in d`. -/
def hasKey (d : RDict) (k : Char) : Bool :=
  (findVal d k).isSome

/-- The list of keys of a dict. -/
def keysOf (d : RDict) : List Char :=
  d.map (fun p => p.1)

/-- Assignment `d[k] = v` for a key `k` already present: replace the stored
value, keeping the position (Python dict update semantics). -/
def setVal (d : RDict) (k : Char) (v : Int) : RDict :=
  d.map (fun p => if p.1 = k then (k, v) else p)

/-- `Resources.exclude`: drop one kind from the dict. -/
def excludeKey (d : RDict) (k : Char) : RDict :=
  d.filter (fun p => !(p.1 = k : Bool))

/-- Sum of the stored quantities, `sum(d.values())`. -/
def sumVals (d : RDict) : Int :=
  (d.map (fun p => p.2)).sum

/-- `d.get(k, 0)`: lookup with default 0. -/
def getD0 (d : RDict) (k : Char) : Int :=
  (findVal d k).getD 0

/-- An action of the catalogue: a cost dict and a reward dict. -/
structure Action where
  cost : RDict
  reward : RDict
deriving DecidableEq, Repr

/-- `Action.rate`: sum of rewards minus the non-astronaut costs minus the
power cost (counted once more via `.get('P', 0)`). -/
def Action.rate (a : Action) : Int :=
  sumVals a.reward - sumVals (excludeKey a.cost 'A') - getD0 a.cost 'P'

/-- Insert an action into a list already sorted by strictly descending
rating, after all entries of greater-or-equal rating (stable position). -/
def insertByRate (a : Action) : List Action → List Action
  | [] => [a]
  | b :: bs => if b.rate < a.rate then a :: b :: bs else b :: insertByRate a bs

/-- `sorted(actions, key=lambda a: -a.rate())`: Python's stable descending
sort, realised as stable insertion of each element in original order. -/
def sortActions (l : List Action) : List Action :=
  l.foldl (fun acc a => insertByRate a acc) []

/-- The puzzle definition handed to `Game.__init__` (before sorting). -/
structure Game where
  rounds : Nat
  apr : Nat            -- actions_per_round
  start : RDict
  target : RDict
  actions : List Action
deriving DecidableEq, Repr

/-- `self.actions` after the constructor's descending-rating sort. -/
def Game.sactions (g : Game) : List Action :=
  sortActions g.actions

/-- `Game._get_maximum_resources_per_round`: fold over the (sorted) action
catalogue, keeping per kind the maximum single-action reward; a fresh kind is
appended, a larger value overwrites in place. -/
def maxStep (m : RDict) (p : Char × Int) : RDict :=
  match findVal m p.1 with
  | none => m ++ [p]
  | some v => if v < p.2 then setVal m p.1 p.2 else m

def maxResources (l : List Action) : RDict :=
  l.foldl (fun m a => a.reward.foldl maxStep m) []

/-- `self.max_resources_per_round`, computed in the constructor after the
sort. -/
def Game.maxPerRound (g : Game) : RDict :=
  maxResources g.sactions

/-- `GameState.can_perform_action`: `all([res[k] >= cost[k] for k in cost])`.
The list comprehension evaluates every lookup before `all` runs, so a
missing key raises (`none`) regardless of the truth of other conjuncts. -/
def canPerformAction (res : RDict) : RDict → Option Bool
  | [] => some true
  | p :: rest => do
      let v ← findVal res p.1
      let b ← canPerformAction res rest
      pure (decide (p.2 ≤ v) && b)

/-- `GameState.is_solved`: `all([res[k] >= target[k] for k in target])` —
the identical lookup-and-compare pattern, iterated over the target dict. -/
def isSolvedB (target : RDict) (res : RDict) : Option Bool :=
  canPerformAction res target

/-- `GameState.can_be_solved`: for every kind of `maxr`, require
`res[k] + remaining * maxr[k] >= target[k]`; a kind missing from `res` or
`target` raises (`none`). -/
def canBeSolvedRes (res : RDict) (remaining : Int) (target : RDict) :
    RDict → Option Bool
  | [] => some true
  | p :: rest => do
      let s ← findVal res p.1
      let t ← findVal target p.1
      let b ← canBeSolvedRes res remaining target rest
      pure (decide (t ≤ s + remaining * p.2) && b)

/-- Subtract the cost entries one by one (`res[k] -= cost[k]`), raising on a
missing key. -/
def subCost (d : RDict) : RDict → Option RDict
  | [] => some d
  | p :: rest => do
      let v ← findVal d p.1
      subCost (setVal d p.1 (v - p.2)) rest

/-- Add the reward entries one by one (`res[k] += reward[k]`), raising on a
missing key. -/
def addReward (d : RDict) : RDict → Option RDict
  | [] => some d
  | p :: rest => do
      let v ← findVal d p.1
      addReward (setVal d p.1 (v + p.2)) rest

/-- `GameState`: an owned resource dict plus a move counter. -/
structure GameState where
  resources : RDict
  moves : Int
deriving DecidableEq, Repr

/-- `GameState.perform_action`: subtract the cost, add the reward, increment
the move counter.  No applicability check is made. -/
def performAction (s : GameState) (a : Action) : Option GameState := do
  let r1 ← subCost s.resources a.cost
  let r2 ← addReward r1 a.reward
  pure ⟨r2, s.moves + 1⟩

/-- `GameSequence`: resources plus the ordered action history
(`get_moves()` is the history length). -/
structure GameSequence where
  resources : RDict
  sequence : List Action
deriving DecidableEq, Repr

/-- `Game.advance_round`: reset `'A'` to the start quantity (raising if the
start dict lacks `'A'`), reset `'R'` to 0, subtract 2 from `'H'`; each only
when the kind is present in the current dict. -/
def advanceH (r2 : RDict) : Option RDict :=
  if hasKey r2 'H' then
    (findVal r2 'H').map (fun h0 => setVal r2 'H' (h0 - 2))
  else some r2

def advanceTail (r1 : RDict) : Option RDict :=
  advanceH (if hasKey r1 'R' then setVal r1 'R' 0 else r1)

def advanceRound (start : RDict) (cur : RDict) : Option RDict :=
  match (if hasKey cur 'A' then
          (findVal start 'A').map (fun sa => setVal cur 'A' sa)
        else some cur) with
  | none => none
  | some r1 => advanceTail r1

/-- One committed move of the search engine on a `GameSequence`: perform the
action (already checked applicable by the caller), then apply the round
boundary effect when the new move count is a positive multiple of
`actions_per_round`.  `m % 0` raises `ZeroDivisionError` in Python, hence the
explicit `apr = 0` failure. -/
def applyActionSeq (g : Game) (s : GameSequence) (a : Action) :
    Option GameSequence := do
  let r1 ← subCost s.resources a.cost
  let r2 ← addReward r1 a.reward
  let seq' := s.sequence ++ [a]
  if g.apr = 0 then none
  else if seq'.length % g.apr = 0 ∧ seq'.length ≠ 0 then
    (advanceRound g.start r2).map (fun r3 => ⟨r3, seq'⟩)
  else
    pure ⟨r2, seq'⟩

/-- `Game.remaining_rounds`, despite the name: remaining MOVES,
`rounds * actions_per_round - get_moves()`. -/
def remainingMoves (g : Game) (s : GameSequence) : Int :=
  (g.rounds * g.apr : Int) - s.sequence.length

/-- `Game.can_be_solved(state)`. -/
def canBeSolvedG (g : Game) (s : GameSequence) : Option Bool :=
  canBeSolvedRes s.resources (remainingMoves g s) g.target g.maxPerRound

example : canBeSolvedRes [('C', 0)] 2 [('C', 2)] [('C', 1)] = some true := by decide
example : canBeSolvedRes [('C', 0)] 1 [('C', 2)] [('C', 1)] = some false := by decide
example : canBeSolvedRes [('C', 0)] 1 [('D', 2)] [('C', 1)] = none := by decide
example : isSolvedB [('C', 1)] [('C', 2), ('P', 0)] = some true := by decide

example : findVal [('P', 3), ('C', 0)] 'P' = some 3 := by decide
example : canPerformAction [('P', 3), ('C', 0)] [('P', 1)] = some true := by decide
example : canPerformAction [('P', 3)] [('C', 1)] = none := by decide
example :
    performAction ⟨[('P', 3), ('C', 0)], 0⟩ ⟨[('P', 1)], [('C', 2)]⟩ =
      some ⟨[('P', 2), ('C', 2)], 1⟩ := by decide
example : advanceRound [('A', 3)] [('A', 1), ('H', 1)] =
    some [('A', 3), ('H', -1)] := by decide

/-! ### Basic dictionary lemmas -/

@[simp] theorem findVal_nil (k : Char) : findVal [] k = none := rfl

@[simp] theorem findVal_cons (k' : Char) (v : Int) (rest : RDict) (k : Char) :
    findVal ((k', v) :: rest) k = if k' = k then some v else findVal rest k := rfl

@[simp] theorem findVal_cons' (p : Char × Int) (rest : RDict) (k : Char) :
    findVal (p :: rest) k = if p.1 = k then some p.2 else findVal rest k := by
  obtain ⟨a, b⟩ := p
  rfl

@[simp] theorem setVal_nil (k : Char) (v : Int) : setVal [] k v = [] := rfl

@[simp] theorem setVal_cons (p : Char × Int) (rest : RDict) (k : Char) (v : Int) :
    setVal (p :: rest) k v = (if p.1 = k then (k, v) else p) :: setVal rest k v := rfl

@[simp] theorem keysOf_nil : keysOf [] = [] := rfl

@[simp] theorem keysOf_cons (p : Char × Int) (rest : RDict) :
    keysOf (p :: rest) = p.1 :: keysOf rest := rfl

theorem findVal_eq_none_iff (d : RDict) (k : Char) :
    findVal d k = none ↔ k ∉ keysOf d := by
  induction d with
  | nil => simp
  | cons p rest ih =>
    obtain ⟨k', v⟩ := p
    by_cases h : k' = k <;> simp [h, ih, Ne.symm]

theorem findVal_isSome_iff (d : RDict) (k : Char) :
    (findVal d k).isSome = true ↔ k ∈ keysOf d := by
  induction d with
  | nil => simp
  | cons p rest ih =>
    obtain ⟨k', v⟩ := p
    by_cases h : k' = k <;> simp [h, ih, Ne.symm]

theorem hasKey_iff_mem (d : RDict) (k : Char) :
    hasKey d k = true ↔ k ∈ keysOf d := findVal_isSome_iff d k

theorem getD0_eq_zero_of_not_mem {d : RDict} {k : Char} (h : k ∉ keysOf d) :
    getD0 d k = 0 := by
  unfold getD0
  rw [(findVal_eq_none_iff d k).2 h]
  rfl

theorem findVal_setVal_self (d : RDict) (k : Char) (v : Int) :
    findVal (setVal d k v) k = (findVal d k).map (fun _ => v) := by
  induction d with
  | nil => simp
  | cons p rest ih =>
    obtain ⟨k₀, v₀⟩ := p
    by_cases h0 : k₀ = k <;> simp [h0, ih]

theorem findVal_setVal_ne (d : RDict) (k : Char) (v : Int) {k' : Char}
    (h : k' ≠ k) : findVal (setVal d k v) k' = findVal d k' := by
  induction d with
  | nil => simp
  | cons p rest ih =>
    obtain ⟨k₀, v₀⟩ := p
    by_cases h0 : k₀ = k
    · subst h0
      simp [Ne.symm h, ih]
    · by_cases h1 : k₀ = k' <;> simp [h, h0, h1, ih]

theorem findVal_setVal (d : RDict) (k : Char) (v : Int) (k' : Char) :
    findVal (setVal d k v) k' =
      if k' = k then (findVal d k).map (fun _ => v) else findVal d k' := by
  by_cases h : k' = k
  · subst h; rw [if_pos rfl, findVal_setVal_self]
  · rw [if_neg h, findVal_setVal_ne _ _ _ h]

theorem keysOf_setVal (d : RDict) (k : Char) (v : Int) :
    keysOf (setVal d k v) = keysOf d := by
  induction d with
  | nil => rfl
  | cons p rest ih =>
    obtain ⟨k₀, v₀⟩ := p
    by_cases h : k₀ = k <;> simp [h, ih]

theorem hasKey_setVal (d : RDict) (k : Char) (v : Int) (k' : Char) :
    hasKey (setVal d k v) k' = hasKey d k' := by
  unfold hasKey
  rw [findVal_setVal]
  by_cases h : k' = k
  · subst h; cases findVal d k' <;> simp
  · simp [h]

/-! ### subCost / addReward lemmas -/

theorem subCost_keys {c d d' : RDict} (h : subCost d c = some d') :
    keysOf d' = keysOf d := by
  induction c generalizing d with
  | nil => simp [subCost] at h; rw [h]
  | cons p rest ih =>
    simp only [subCost, Option.bind_eq_bind, Option.bind_eq_some] at h
    obtain ⟨v, _, h2⟩ := h
    rw [ih h2, keysOf_setVal]

theorem subCost_findVal {c : RDict} (hc : (keysOf c).Nodup) {d d' : RDict}
    (h : subCost d c = some d') (k : Char) :
    findVal d' k = (findVal d k).map (fun v => v - getD0 c k) := by
  induction c generalizing d with
  | nil =>
    simp [subCost] at h
    subst h
    cases hfk : findVal d k <;> simp [getD0_eq_zero_of_not_mem, keysOf]
  | cons p rest ih =>
    obtain ⟨k₁, c₁⟩ := p
    simp only [subCost, Option.bind_eq_bind, Option.bind_eq_some] at h
    obtain ⟨v₁, hv₁, h2⟩ := h
    simp only [keysOf_cons, List.nodup_cons] at hc
    have := ih hc.2 h2
    by_cases hk : k = k₁
    · subst hk
      rw [this, findVal_setVal, if_pos rfl, hv₁,
        getD0_eq_zero_of_not_mem hc.1]
      simp [getD0, hv₁]
    · rw [this, findVal_setVal, if_neg hk]
      have : getD0 ((k₁, c₁) :: rest) k = getD0 rest k := by
        simp [getD0, Ne.symm hk]
      rw [this]

theorem subCost_isSome {c d : RDict} (h : ∀ k ∈ keysOf c, hasKey d k = true) :
    ∃ d', subCost d c = some d' := by
  induction c generalizing d with
  | nil => exact ⟨d, rfl⟩
  | cons p rest ih =>
    obtain ⟨k₁, c₁⟩ := p
    have h1 : hasKey d k₁ = true := h k₁ (by simp)
    obtain ⟨v₁, hv₁⟩ := Option.isSome_iff_exists.1 h1
    obtain ⟨d', hd'⟩ := ih (d := setVal d k₁ (v₁ - c₁)) (fun k hk => by
      rw [hasKey_setVal]; exact h k (by simp [hk]))
    exact ⟨d', by simp [subCost, hv₁, hd']⟩

theorem addReward_keys {c d d' : RDict} (h : addReward d c = some d') :
    keysOf d' = keysOf d := by
  induction c generalizing d with
  | nil => simp [addReward] at h; rw [h]
  | cons p rest ih =>
    simp only [addReward, Option.bind_eq_bind, Option.bind_eq_some] at h
    obtain ⟨v, _, h2⟩ := h
    rw [ih h2, keysOf_setVal]

theorem addReward_findVal {c : RDict} (hc : (keysOf c).Nodup) {d d' : RDict}
    (h : addReward d c = some d') (k : Char) :
    findVal d' k = (findVal d k).map (fun v => v + getD0 c k) := by
  induction c generalizing d with
  | nil =>
    simp [addReward] at h
    subst h
    cases hfk : findVal d k <;> simp [getD0_eq_zero_of_not_mem, keysOf]
  | cons p rest ih =>
    obtain ⟨k₁, c₁⟩ := p
    simp only [addReward, Option.bind_eq_bind, Option.bind_eq_some] at h
    obtain ⟨v₁, hv₁, h2⟩ := h
    simp only [keysOf_cons, List.nodup_cons] at hc
    have := ih hc.2 h2
    by_cases hk : k = k₁
    · subst hk
      rw [this, findVal_setVal, if_pos rfl, hv₁,
        getD0_eq_zero_of_not_mem hc.1]
      simp [getD0, hv₁]
    · rw [this, findVal_setVal, if_neg hk]
      have : getD0 ((k₁, c₁) :: rest) k = getD0 rest k := by
        simp [getD0, Ne.symm hk]
      rw [this]

theorem addReward_isSome {c d : RDict} (h : ∀ k ∈ keysOf c, hasKey d k = true) :
    ∃ d', addReward d c = some d' := by
  induction c generalizing d with
  | nil => exact ⟨d, rfl⟩
  | cons p rest ih =>
    obtain ⟨k₁, c₁⟩ := p
    have h1 : hasKey d k₁ = true := h k₁ (by simp)
    obtain ⟨v₁, hv₁⟩ := Option.isSome_iff_exists.1 h1
    obtain ⟨d', hd'⟩ := ih (d := setVal d k₁ (v₁ + c₁)) (fun k hk => by
      rw [hasKey_setVal]; exact h k (by simp [hk]))
    exact ⟨d', by simp [addReward, hv₁, hd']⟩

/-! ### Lemmas about the all-entries checks -/

theorem canPerformAction_eq_all (res : RDict) (c : RDict)
    (h : ∀ k ∈ keysOf c, hasKey res k = true) :
    canPerformAction res c =
      some (c.all (fun p => decide (p.2 ≤ getD0 res p.1))) := by
  induction c with
  | nil => rfl
  | cons p rest ih =>
    obtain ⟨k₁, c₁⟩ := p
    have h1 : hasKey res k₁ = true := h k₁ (by simp)
    obtain ⟨v₁, hv₁⟩ := Option.isSome_iff_exists.1 h1
    have : getD0 res k₁ = v₁ := by simp [getD0, hv₁]
    simp [canPerformAction, hv₁, ih (fun k hk => h k (by simp [hk])), this]

theorem canPerformAction_isSome_defined {res c : RDict}
    (h : (canPerformAction res c).isSome = true) :
    ∀ k ∈ keysOf c, hasKey res k = true := by
  induction c with
  | nil => simp
  | cons p rest ih =>
    obtain ⟨k₁, c₁⟩ := p
    intro k hk
    cases hv : findVal res k₁ with
    | none => rw [canPerformAction, hv] at h; simp at h
    | some v =>
      rw [canPerformAction, hv] at h
      rw [keysOf_cons, List.mem_cons] at hk
      rcases hk with hk | hk
      · subst hk; simp [hasKey, hv]
      · cases hr : canPerformAction res rest with
        | none => rw [hr] at h; simp at h
        | some b => exact ih (by rw [hr]; rfl) k hk

theorem canPerformAction_true_spec {res c : RDict}
    (h : canPerformAction res c = some true) :
    ∀ p ∈ c, ∃ v, findVal res p.1 = some v ∧ p.2 ≤ v := by
  induction c with
  | nil => simp
  | cons q rest ih =>
    obtain ⟨k₁, c₁⟩ := q
    intro p hp
    cases hv : findVal res k₁ with
    | none => rw [canPerformAction, hv] at h; simp at h
    | some v =>
      rw [canPerformAction, hv] at h
      cases hr : canPerformAction res rest with
      | none => rw [hr] at h; simp at h
      | some b =>
        rw [hr] at h
        simp only [Option.pure_def, Option.bind_eq_bind, Option.some_bind,
          Option.some_inj, Bool.and_eq_true, decide_eq_true_eq] at h
        rw [List.mem_cons] at hp
        rcases hp with hp | hp
        · subst hp; exact ⟨v, hv, h.1⟩
        · exact ih (by rw [hr, h.2]) p hp

theorem canPerformAction_true_of {res c : RDict}
    (h : ∀ p ∈ c, ∃ v, findVal res p.1 = some v ∧ p.2 ≤ v) :
    canPerformAction res c = some true := by
  induction c with
  | nil => rfl
  | cons q rest ih =>
    obtain ⟨k₁, c₁⟩ := q
    obtain ⟨v, hv, hle⟩ := h (k₁, c₁) (by simp)
    simp [canPerformAction, hv, ih (fun p hp => h p (by simp [hp])), hle]

theorem canBeSolvedRes_eq_all (res : RDict) (r : Int) (target : RDict)
    (maxr : RDict)
    (h : ∀ k ∈ keysOf maxr, hasKey res k = true ∧ hasKey target k = true) :
    canBeSolvedRes res r target maxr =
      some (maxr.all (fun p =>
        decide (getD0 target p.1 ≤ getD0 res p.1 + r * p.2))) := by
  induction maxr with
  | nil => rfl
  | cons p rest ih =>
    obtain ⟨k₁, m₁⟩ := p
    obtain ⟨hs, ht⟩ := h k₁ (by simp)
    obtain ⟨s₁, hs₁⟩ := Option.isSome_iff_exists.1 hs
    obtain ⟨t₁, ht₁⟩ := Option.isSome_iff_exists.1 ht
    have e1 : getD0 res k₁ = s₁ := by simp [getD0, hs₁]
    have e2 : getD0 target k₁ = t₁ := by simp [getD0, ht₁]
    simp [canBeSolvedRes, hs₁, ht₁, ih (fun k hk => h k (by simp [hk])), e1, e2]

theorem canBeSolvedRes_isSome_defined {res target maxr : RDict} {r : Int}
    (h : (canBeSolvedRes res r target maxr).isSome = true) :
    ∀ k ∈ keysOf maxr, hasKey res k = true ∧ hasKey target k = true := by
  induction maxr with
  | nil => simp
  | cons p rest ih =>
    obtain ⟨k₁, m₁⟩ := p
    intro k hk
    cases hs : findVal res k₁ with
    | none => rw [canBeSolvedRes, hs] at h; simp at h
    | some s =>
      cases ht : findVal target k₁ with
      | none => rw [canBeSolvedRes, hs, ht] at h; simp at h
      | some t =>
        rw [canBeSolvedRes, hs, ht] at h
        rw [keysOf_cons, List.mem_cons] at hk
        rcases hk with hk | hk
        · subst hk; constructor <;> simp [hasKey, hs, ht]
        · cases hr : canBeSolvedRes res r target rest with
          | none => rw [hr] at h; simp at h
          | some b => exact ih (by rw [hr]; rfl) k hk

theorem canBeSolvedRes_defined_of_isSome {res target maxr : RDict} {r : Int}
    (h : ∀ k ∈ keysOf maxr, hasKey res k = true ∧ hasKey target k = true) :
    (canBeSolvedRes res r target maxr).isSome = true := by
  rw [canBeSolvedRes_eq_all res r target maxr h]; rfl

/-! ### Pointwise specification of perform_action -/

theorem performAction_spec {V : RDict} {a : Action} {m : Int}
    (hcNd : (keysOf a.cost).Nodup) (hrNd : (keysOf a.reward).Nodup)
    (hcD : ∀ k ∈ keysOf a.cost, hasKey V k = true)
    (hrD : ∀ k ∈ keysOf a.reward, hasKey V k = true) :
    ∃ W, performAction ⟨V, m⟩ a = some ⟨W, m + 1⟩ ∧
      keysOf W = keysOf V ∧
      ∀ k, findVal W k =
        (findVal V k).map (fun v => v - getD0 a.cost k + getD0 a.reward k) := by
  obtain ⟨d1, h1⟩ := subCost_isSome hcD
  have hk1 : keysOf d1 = keysOf V := subCost_keys h1
  have hrD1 : ∀ k ∈ keysOf a.reward, hasKey d1 k = true := by
    intro k hk
    rw [hasKey_iff_mem, hk1, ← hasKey_iff_mem]
    exact hrD k hk
  obtain ⟨d2, h2⟩ := addReward_isSome hrD1
  refine ⟨d2, ?_, ?_, ?_⟩
  · unfold performAction
    simp [h1, h2]
  · rw [addReward_keys h2, hk1]
  · intro k
    rw [addReward_findVal hrNd h2 k, subCost_findVal hcNd h1 k]
    cases findVal V k <;> simp

/-! ### Specification of the round-boundary effect -/

theorem advanceH_isSome (r2 : RDict) : (advanceH r2).isSome = true := by
  unfold advanceH
  cases hH : hasKey r2 'H' with
  | true =>
    obtain ⟨hv, hhv⟩ := Option.isSome_iff_exists.1 hH
    simp [hH, hhv]
  | false => simp [hH]

theorem advanceTail_isSome (r1 : RDict) : (advanceTail r1).isSome = true :=
  advanceH_isSome _

theorem advanceRound_isSome {st cur : RDict}
    (h : hasKey cur 'A' = true → hasKey st 'A' = true) :
    ∃ d', advanceRound st cur = some d' := by
  rw [← Option.isSome_iff_exists]
  unfold advanceRound
  cases hA : hasKey cur 'A' with
  | true =>
    obtain ⟨sa, hsa⟩ := Option.isSome_iff_exists.1 (h hA)
    simp only [hA, if_true, hsa, Option.map_some']
    exact advanceTail_isSome _
  | false =>
    simp only [hA, Bool.false_eq_true, if_false]
    exact advanceTail_isSome _

theorem advanceH_spec {r2 d' : RDict} (h : advanceH r2 = some d') :
    keysOf d' = keysOf r2 ∧
    (∀ k, k ≠ 'H' → findVal d' k = findVal r2 k) ∧
    (∀ h0, findVal r2 'H' = some h0 → findVal d' 'H' = some (h0 - 2)) := by
  unfold advanceH at h
  cases hH : hasKey r2 'H' with
  | true =>
    obtain ⟨hv, hhv⟩ := Option.isSome_iff_exists.1 hH
    rw [hH, if_pos rfl, hhv] at h
    simp only [Option.map_some', Option.some_inj] at h
    subst h
    refine ⟨keysOf_setVal _ _ _, ?_, ?_⟩
    · intro k hk
      exact findVal_setVal_ne _ _ _ hk
    · intro h0 hh0
      rw [hh0] at hhv
      cases hhv
      rw [findVal_setVal_self, hh0]
      rfl
  | false =>
    rw [hH] at h
    simp only [Bool.false_eq_true, if_false, Option.some_inj] at h
    subst h
    refine ⟨rfl, fun _ _ => rfl, ?_⟩
    intro h0 hh0
    rw [hasKey, hh0] at hH
    simp at hH

theorem advanceTail_spec {r1 d' : RDict} (h : advanceTail r1 = some d') :
    keysOf d' = keysOf r1 ∧
    (∀ k, k ≠ 'R' → k ≠ 'H' → findVal d' k = findVal r1 k) ∧
    (hasKey r1 'R' = true → findVal d' 'R' = some 0) ∧
    (∀ h0, findVal r1 'H' = some h0 → findVal d' 'H' = some (h0 - 2)) := by
  unfold advanceTail at h
  cases hR : hasKey r1 'R' with
  | true =>
    rw [hR, if_pos rfl] at h
    obtain ⟨hv, hrv⟩ := Option.isSome_iff_exists.1 hR
    obtain ⟨hk, hne, hHc⟩ := advanceH_spec h
    refine ⟨by rw [hk, keysOf_setVal], ?_, ?_, ?_⟩
    · intro k hkR hkH
      rw [hne k hkH, findVal_setVal_ne _ _ _ hkR]
    · intro _
      rw [hne 'R' (by decide), findVal_setVal_self, hrv]
      rfl
    · intro h0 hh0
      refine hHc h0 ?_
      rw [findVal_setVal_ne _ _ _ (by decide)]
      exact hh0
  | false =>
    rw [hR] at h
    simp only [Bool.false_eq_true, if_false] at h
    obtain ⟨hk, hne, hHc⟩ := advanceH_spec h
    refine ⟨hk, fun k _ => hne k, ?_, hHc⟩
    intro hR'
    exact absurd hR' (by simp [hR])

theorem advanceRound_spec {st cur d' : RDict} (h : advanceRound st cur = some d') :
    keysOf d' = keysOf cur ∧
    (∀ k, k ≠ 'A' → k ≠ 'R' → k ≠ 'H' → findVal d' k = findVal cur k) ∧
    (hasKey cur 'A' = true → findVal d' 'A' = findVal st 'A') ∧
    (hasKey cur 'A' = false → findVal d' 'A' = none) ∧
    (hasKey cur 'R' = true → findVal d' 'R' = some 0) ∧
    (∀ h0, findVal cur 'H' = some h0 → findVal d' 'H' = some (h0 - 2)) := by
  unfold advanceRound at h
  cases hA : hasKey cur 'A' with
  | true =>
    obtain ⟨sa, hsa⟩ := Option.isSome_iff_exists.1 hA
    cases hst : findVal st 'A' with
    | none => rw [hA, hst] at h; simp at h
    | some sv =>
      rw [hA, hst] at h
      simp only [if_true, Option.map_some'] at h
      obtain ⟨hk, hne, hR, hH⟩ := advanceTail_spec h
      have hkey : keysOf (setVal cur 'A' sv) = keysOf cur := keysOf_setVal _ _ _
      refine ⟨by rw [hk, hkey], ?_, ?_, ?_, ?_, ?_⟩
      · intro k hkA hkR hkH
        rw [hne k hkR hkH, findVal_setVal_ne _ _ _ hkA]
      · intro _
        rw [hne 'A' (by decide) (by decide), findVal_setVal_self, hsa]
        simp [hst]
      · intro hA'; exact absurd hA' (by simp)
      · intro hRc
        refine hR ?_
        rw [hasKey, findVal_setVal_ne _ _ _ (by decide)]
        exact hRc
      · intro h0 hh0
        refine hH h0 ?_
        rw [findVal_setVal_ne _ _ _ (by decide)]
        exact hh0
  | false =>
    rw [hA] at h
    simp only [Bool.false_eq_true, if_false] at h
    obtain ⟨hk, hne, hR, hH⟩ := advanceTail_spec h
    refine ⟨hk, fun k _ => hne k, ?_, ?_, hR, hH⟩
    · intro hA'; exact absurd hA' (by simp [hA])
    · intro _
      have hnone : findVal cur 'A' = none := by
        cases hfa : findVal cur 'A' with
        | none => rfl
        | some x => simp [hasKey, hfa] at hA
      rw [hne 'A' (by decide) (by decide), hnone]

/-! ### Sorting is a permutation -/

theorem insertByRate_perm (a : Action) (l : List Action) :
    List.Perm (insertByRate a l) (a :: l) := by
  induction l with
  | nil => exact List.Perm.refl _
  | cons b bs ih =>
    unfold insertByRate
    split
    · exact List.Perm.refl _
    · exact ((ih.cons b).trans (List.Perm.swap a b bs))

theorem foldl_insertByRate_perm (l : List Action) :
    ∀ acc, List.Perm (l.foldl (fun acc a => insertByRate a acc) acc) (l ++ acc) := by
  induction l with
  | nil => intro acc; simp
  | cons a rest ih =>
    intro acc
    have h1 := ih (insertByRate a acc)
    have h2 : List.Perm (rest ++ insertByRate a acc) (rest ++ (a :: acc)) :=
      List.Perm.append_left rest (insertByRate_perm a acc)
    have h3 : List.Perm (rest ++ (a :: acc)) (a :: (rest ++ acc)) :=
      List.perm_middle
    simpa using (h1.trans h2).trans h3

theorem sortActions_perm (l : List Action) : List.Perm (sortActions l) l := by
  have := foldl_insertByRate_perm l []
  simpa [sortActions] using this

theorem mem_sactions {g : Game} {a : Action} : a ∈ g.sactions ↔ a ∈ g.actions :=
  (sortActions_perm g.actions).mem_iff

/-! ### Lemmas about max_resources_per_round -/

theorem findVal_append (m l : RDict) (k : Char) :
    findVal (m ++ l) k =
      match findVal m k with
      | some v => some v
      | none => findVal l k := by
  induction m with
  | nil => simp
  | cons p rest ih =>
    obtain ⟨k₀, v₀⟩ := p
    by_cases h : k₀ = k <;> simp [h, ih]

theorem maxStep_none {m : RDict} {p : Char × Int} (hp : findVal m p.1 = none) :
    maxStep m p = m ++ [p] := by
  simp [maxStep, hp]

theorem maxStep_some {m : RDict} {p : Char × Int} {v0 : Int}
    (hp : findVal m p.1 = some v0) :
    maxStep m p = if v0 < p.2 then setVal m p.1 p.2 else m := by
  simp [maxStep, hp]

theorem maxStep_findVal_mono {m : RDict} {k : Char} {v : Int} (p : Char × Int)
    (h : findVal m k = some v) :
    ∃ v', findVal (maxStep m p) k = some v' ∧ v ≤ v' := by
  cases hp : findVal m p.1 with
  | none =>
    refine ⟨v, ?_, le_refl v⟩
    rw [maxStep_none hp, findVal_append, h]
  | some v0 =>
    rw [maxStep_some hp]
    by_cases hlt : v0 < p.2
    · rw [if_pos hlt]
      by_cases hk : k = p.1
      · subst hk
        rw [h] at hp
        cases hp
        refine ⟨p.2, ?_, le_of_lt hlt⟩
        rw [findVal_setVal_self, h]
        rfl
      · exact ⟨v, by rw [findVal_setVal_ne _ _ _ hk]; exact h, le_refl v⟩
    · rw [if_neg hlt]
      exact ⟨v, h, le_refl v⟩

theorem maxStep_self_bound (m : RDict) (p : Char × Int) :
    ∃ v', findVal (maxStep m p) p.1 = some v' ∧ p.2 ≤ v' := by
  cases hp : findVal m p.1 with
  | none =>
    refine ⟨p.2, ?_, le_refl _⟩
    rw [maxStep_none hp, findVal_append, hp]
    simp
  | some v0 =>
    rw [maxStep_some hp]
    by_cases hlt : v0 < p.2
    · refine ⟨p.2, ?_, le_refl _⟩
      rw [if_pos hlt, findVal_setVal_self, hp]
      rfl
    · exact ⟨v0, by rw [if_neg hlt]; exact hp, le_of_not_lt hlt⟩

theorem foldl_maxStep_mono (rw : List (Char × Int)) :
    ∀ (m : RDict) {k : Char} {v : Int}, findVal m k = some v →
      ∃ v', findVal (rw.foldl maxStep m) k = some v' ∧ v ≤ v' := by
  induction rw with
  | nil => intro m k v h; exact ⟨v, h, le_refl v⟩
  | cons p rest ih =>
    intro m k v h
    obtain ⟨v1, h1, hle1⟩ := maxStep_findVal_mono p h
    obtain ⟨v2, h2, hle2⟩ := ih (maxStep m p) h1
    exact ⟨v2, h2, le_trans hle1 hle2⟩

theorem foldl_maxStep_entry (rw : List (Char × Int)) :
    ∀ (m : RDict) {p : Char × Int}, p ∈ rw →
      ∃ v', findVal (rw.foldl maxStep m) p.1 = some v' ∧ p.2 ≤ v' := by
  induction rw with
  | nil => intro m p hp; cases hp
  | cons q rest ih =>
    intro m p hp
    rw [List.mem_cons] at hp
    rcases hp with hp | hp
    · subst hp
      obtain ⟨v1, h1, hle1⟩ := maxStep_self_bound m p
      obtain ⟨v2, h2, hle2⟩ := foldl_maxStep_mono rest (maxStep m p) h1
      exact ⟨v2, h2, le_trans hle1 hle2⟩
    · exact ih (maxStep m q) hp

theorem actionsFold_mono (l : List Action) :
    ∀ (m : RDict) {k : Char} {v : Int}, findVal m k = some v →
      ∃ v', findVal (l.foldl (fun m a => a.reward.foldl maxStep m) m) k
        = some v' ∧ v ≤ v' := by
  induction l with
  | nil => intro m k v h; exact ⟨v, h, le_refl v⟩
  | cons a rest ih =>
    intro m k v h
    obtain ⟨v1, h1, hle1⟩ := foldl_maxStep_mono a.reward m h
    obtain ⟨v2, h2, hle2⟩ := ih _ h1
    exact ⟨v2, h2, le_trans hle1 hle2⟩

theorem maxResources_entry_bound {l : List Action} {a : Action} (ha : a ∈ l)
    {p : Char × Int} (hp : p ∈ a.reward) :
    ∃ v', findVal (maxResources l) p.1 = some v' ∧ p.2 ≤ v' := by
  unfold maxResources
  suffices hgen : ∀ (m : RDict),
      ∃ v', findVal (l.foldl (fun m a => a.reward.foldl maxStep m) m) p.1
        = some v' ∧ p.2 ≤ v' from hgen []
  intro m
  induction l generalizing m with
  | nil => cases ha
  | cons b rest ih =>
    rw [List.mem_cons] at ha
    rcases ha with hab | ha
    · subst hab
      obtain ⟨v1, h1, hle1⟩ := foldl_maxStep_entry a.reward m hp
      obtain ⟨v2, h2, hle2⟩ := actionsFold_mono rest _ h1
      exact ⟨v2, h2, le_trans hle1 hle2⟩
    · exact ih ha _

theorem maxStep_val_src {m : RDict} {p : Char × Int} {k : Char} {v : Int}
    (h : findVal (maxStep m p) k = some v) :
    findVal m k = some v ∨ (k = p.1 ∧ v = p.2) := by
  cases hp : findVal m p.1 with
  | none =>
    rw [maxStep_none hp, findVal_append] at h
    cases hm : findVal m k with
    | some w => simp only [hm] at h; exact Or.inl h
    | none =>
      rw [hm] at h
      simp only [findVal_cons', findVal_nil] at h
      by_cases hk : p.1 = k
      · rw [if_pos hk] at h
        exact Or.inr ⟨hk.symm, (Option.some_inj.1 h).symm⟩
      · rw [if_neg hk] at h; cases h
  | some v0 =>
    rw [maxStep_some hp] at h
    by_cases hlt : v0 < p.2
    · rw [if_pos hlt] at h
      by_cases hk : k = p.1
      · subst hk
        rw [findVal_setVal_self, hp] at h
        exact Or.inr ⟨rfl, (Option.some_inj.1 h).symm⟩
      · rw [findVal_setVal_ne _ _ _ hk] at h
        exact Or.inl h
    · rw [if_neg hlt] at h
      exact Or.inl h

theorem foldl_maxStep_val_src (rw : List (Char × Int)) :
    ∀ (m : RDict) {k : Char} {v : Int},
      findVal (rw.foldl maxStep m) k = some v →
      findVal m k = some v ∨ (k, v) ∈ rw := by
  induction rw with
  | nil => intro m k v h; exact Or.inl h
  | cons p rest ih =>
    intro m k v h
    rcases ih (maxStep m p) h with h' | h'
    · rcases maxStep_val_src h' with h'' | ⟨hk, hv⟩
      · exact Or.inl h''
      · subst hk; subst hv
        exact Or.inr (by left)
    · exact Or.inr (List.mem_cons_of_mem _ h')

theorem maxResources_val_src {l : List Action} {k : Char} {v : Int}
    (h : findVal (maxResources l) k = some v) :
    ∃ a ∈ l, (k, v) ∈ a.reward := by
  unfold maxResources at h
  suffices hgen : ∀ (m : RDict),
      findVal (l.foldl (fun m a => a.reward.foldl maxStep m) m) k = some v →
      findVal m k = some v ∨ ∃ a ∈ l, (k, v) ∈ a.reward by
    rcases hgen [] h with h' | h'
    · cases h'
    · exact h'
  clear h
  induction l with
  | nil => intro m h; exact Or.inl h
  | cons b rest ih =>
    intro m h
    rcases ih _ h with h' | h'
    · rcases foldl_maxStep_val_src b.reward m h' with h'' | h''
      · exact Or.inl h''
      · exact Or.inr ⟨b, by left, h''⟩
    · obtain ⟨a, ha, hp⟩ := h'
      exact Or.inr ⟨a, List.mem_cons_of_mem _ ha, hp⟩

theorem keysOf_append (m l : RDict) : keysOf (m ++ l) = keysOf m ++ keysOf l :=
  List.map_append _ _ _

theorem mem_keysOf_maxStep {m : RDict} (p : Char × Int) (k : Char) :
    k ∈ keysOf (maxStep m p) ↔ k ∈ keysOf m ∨ k = p.1 := by
  cases hp : findVal m p.1 with
  | none => rw [maxStep_none hp, keysOf_append]; simp [keysOf]
  | some v0 =>
    have hmem : p.1 ∈ keysOf m := by
      rw [← findVal_isSome_iff, hp]; rfl
    rw [maxStep_some hp]
    by_cases hlt : v0 < p.2
    · rw [if_pos hlt, keysOf_setVal]
      constructor
      · exact fun h => Or.inl h
      · rintro (h | h)
        · exact h
        · subst h; exact hmem
    · rw [if_neg hlt]
      constructor
      · exact fun h => Or.inl h
      · rintro (h | h)
        · exact h
        · subst h; exact hmem

theorem mem_keysOf_foldl_maxStep (rw : List (Char × Int)) :
    ∀ (m : RDict) (k : Char),
      k ∈ keysOf (rw.foldl maxStep m) ↔ k ∈ keysOf m ∨ k ∈ keysOf rw := by
  induction rw with
  | nil => simp
  | cons p rest ih =>
    intro m k
    rw [List.foldl_cons, ih, mem_keysOf_maxStep]
    simp only [keysOf_cons, List.mem_cons]
    tauto

theorem mem_keysOf_maxResources {l : List Action} {k : Char} :
    k ∈ keysOf (maxResources l) ↔ ∃ a ∈ l, k ∈ keysOf a.reward := by
  unfold maxResources
  suffices hgen : ∀ (m : RDict),
      k ∈ keysOf (l.foldl (fun m a => a.reward.foldl maxStep m) m) ↔
      k ∈ keysOf m ∨ ∃ a ∈ l, k ∈ keysOf a.reward by
    rw [hgen []]
    simp [keysOf]
  induction l with
  | nil => simp
  | cons b rest ih =>
    intro m
    rw [List.foldl_cons, ih, mem_keysOf_foldl_maxStep]
    constructor
    · rintro ((h | h) | ⟨a, ha, hk⟩)
      · exact Or.inl h
      · exact Or.inr ⟨b, by left, h⟩
      · exact Or.inr ⟨a, List.mem_cons_of_mem _ ha, hk⟩
    · rintro (h | ⟨a, ha, hk⟩)
      · exact Or.inl (Or.inl h)
      · rw [List.mem_cons] at ha
        rcases ha with ha | ha
        · subst ha; exact Or.inl (Or.inr hk)
        · exact Or.inr ⟨a, ha, hk⟩

/-! ### Claim C7 -/

/-- Claim C7: for every resource vector `V` (a dict: distinct kinds) and
action `a` whose cost and reward are dicts with every kind present in `V`'s
domain, if `V` dominates `a.cost` (`can_perform_action` holds) then applying
`a` succeeds and yields exactly the pointwise vector `V - a.cost + a.reward`
on the unchanged domain, and the move counter increments by exactly 1. -/
theorem c7_perform_action_exact {V : RDict} {a : Action} {m : Int}
    (hVNd : (keysOf V).Nodup)
    (hcNd : (keysOf a.cost).Nodup) (hrNd : (keysOf a.reward).Nodup)
    (hcD : ∀ k ∈ keysOf a.cost, hasKey V k = true)
    (hrD : ∀ k ∈ keysOf a.reward, hasKey V k = true)
    (hdom : canPerformAction V a.cost = some true) :
    ∃ W, performAction ⟨V, m⟩ a = some ⟨W, m + 1⟩ ∧
      keysOf W = keysOf V ∧
      ∀ k, findVal W k =
        (findVal V k).map (fun v => v - getD0 a.cost k + getD0 a.reward k) :=
  performAction_spec hcNd hrNd hcD hrD

/-- Witness for C7 at a concrete input. -/
theorem c7_perform_action_exact_witness :
    ∃ W, performAction ⟨[('P', 5), ('C', 0)], (0 : Int)⟩
        ⟨[('P', 2)], [('C', 3)]⟩ = some ⟨W, 0 + 1⟩ ∧
      keysOf W = keysOf [('P', 5), ('C', 0)] ∧
      ∀ k, findVal W k = (findVal [('P', 5), ('C', 0)] k).map
        (fun v => v - getD0 [('P', 2)] k + getD0 [('C', 3)] k) :=
  c7_perform_action_exact (a := ⟨[('P', 2)], [('C', 3)]⟩) (by decide) (by decide)
    (by decide) (by decide) (by decide) (by decide)

/-! ### Claim C3 -/

/-- Counterexample to claim C3: a vector that does not dominate the action's
cost (`can_perform_action` is `False`), yet `perform_action` does not signal
any error — it succeeds and leaves a negative quantity in the state. -/
theorem c3_counterexample :
    canPerformAction [('P', 0), ('C', 0)] [('P', 1)] = some false ∧
    performAction ⟨[('P', 0), ('C', 0)], 0⟩ ⟨[('P', 1)], [('C', 1)]⟩ =
      some ⟨[('P', -1), ('C', 1)], 1⟩ ∧
    findVal [('P', -1), ('C', 1)] 'P' = some (-1) := by decide

/-- Claim C3 (amended): when `V` does not dominate `a.cost` (all kinds
present in `V`'s domain), `perform_action` does NOT fail: it succeeds,
yielding exactly `V - a.cost + a.reward` — so quantities are never clamped
to zero, and the deficient kind is left negative whenever the reward does
not compensate; the move counter still increments. -/
theorem c3_no_error_on_insufficient {V : RDict} {a : Action} {m : Int}
    (hVNd : (keysOf V).Nodup)
    (hcNd : (keysOf a.cost).Nodup) (hrNd : (keysOf a.reward).Nodup)
    (hcD : ∀ k ∈ keysOf a.cost, hasKey V k = true)
    (hrD : ∀ k ∈ keysOf a.reward, hasKey V k = true)
    (hnotdom : canPerformAction V a.cost = some false) :
    ∃ W, performAction ⟨V, m⟩ a = some ⟨W, m + 1⟩ ∧
      keysOf W = keysOf V ∧
      ∀ k, findVal W k =
        (findVal V k).map (fun v => v - getD0 a.cost k + getD0 a.reward k) :=
  performAction_spec hcNd hrNd hcD hrD

/-- Witness for the amended C3 at a concrete input. -/
theorem c3_no_error_on_insufficient_witness :
    ∃ W, performAction ⟨[('P', 0), ('C', 0)], (7 : Int)⟩
        ⟨[('P', 1)], [('C', 1)]⟩ = some ⟨W, 7 + 1⟩ ∧
      keysOf W = keysOf [('P', 0), ('C', 0)] ∧
      ∀ k, findVal W k = (findVal [('P', 0), ('C', 0)] k).map
        (fun v => v - getD0 [('P', 1)] k + getD0 [('C', 1)] k) :=
  c3_no_error_on_insufficient (a := ⟨[('P', 1)], [('C', 1)]⟩) (by decide)
    (by decide) (by decide) (by decide) (by decide) (by decide)

/-! ### Claim C6 -/

/-- Claim C6: `advance_round` touches only the three designated kinds: it
resets `'A'` (when present) to the start vector's astronaut quantity, resets
`'R'` (when present) to 0, subtracts 2 from `'H'` (when present, allowing a
negative result), and leaves every other kind unchanged (same domain, same
values).  The start vector must hold an astronaut quantity whenever the
current vector does, otherwise the lookup of `start['A']` raises. -/
theorem c6_advance_round_frame {st cur : RDict}
    (hA : hasKey cur 'A' = true → hasKey st 'A' = true) :
    ∃ d', advanceRound st cur = some d' ∧
      keysOf d' = keysOf cur ∧
      (∀ k, k ≠ 'A' → k ≠ 'R' → k ≠ 'H' → findVal d' k = findVal cur k) ∧
      (hasKey cur 'A' = true → findVal d' 'A' = findVal st 'A') ∧
      (hasKey cur 'R' = true → findVal d' 'R' = some 0) ∧
      (∀ h0, findVal cur 'H' = some h0 → findVal d' 'H' = some (h0 - 2)) := by
  obtain ⟨d', hd'⟩ := advanceRound_isSome hA
  obtain ⟨h1, h2, h3, _, h5, h6⟩ := advanceRound_spec hd'
  exact ⟨d', hd', h1, h2, h3, h5, h6⟩

/-- Witness for C6 at a concrete input. -/
theorem c6_advance_round_frame_witness :
    ∃ d', advanceRound [('A', 3)] [('A', 1), ('R', 5), ('H', 1), ('C', 7)] =
        some d' ∧
      keysOf d' = keysOf [('A', 1), ('R', 5), ('H', 1), ('C', 7)] ∧
      (∀ k, k ≠ 'A' → k ≠ 'R' → k ≠ 'H' →
        findVal d' k = findVal [('A', 1), ('R', 5), ('H', 1), ('C', 7)] k) ∧
      (hasKey [('A', 1), ('R', 5), ('H', 1), ('C', 7)] 'A' = true →
        findVal d' 'A' = findVal [('A', 3)] 'A') ∧
      (hasKey [('A', 1), ('R', 5), ('H', 1), ('C', 7)] 'R' = true →
        findVal d' 'R' = some 0) ∧
      (∀ h0, findVal [('A', 1), ('R', 5), ('H', 1), ('C', 7)] 'H' = some h0 →
        findVal d' 'H' = some (h0 - 2)) :=
  c6_advance_round_frame (by decide)

/-! ### Claim C10 -/

/-- Claim C10: when some action's reward names a kind that is absent from the
state's vector or from the target vector, the feasibility check
`can_be_solved` fails with a missing-key lookup error (modelled as `none`)
rather than treating the missing quantity as 0; it is well-defined exactly
when every kind of `max_resources_per_round` is present in both the state
vector and the target vector. -/
theorem c10_can_be_solved_keyerror {g : Game} {s : GameSequence}
    (h : ∃ a ∈ g.actions, ∃ k ∈ keysOf a.reward,
      hasKey s.resources k = false ∨ hasKey g.target k = false) :
    canBeSolvedG g s = none ∧
    ∀ s' : GameSequence, ((canBeSolvedG g s').isSome = true ↔
      ∀ k ∈ keysOf g.maxPerRound,
        hasKey s'.resources k = true ∧ hasKey g.target k = true) := by
  have hiff : ∀ s' : GameSequence, ((canBeSolvedG g s').isSome = true ↔
      ∀ k ∈ keysOf g.maxPerRound,
        hasKey s'.resources k = true ∧ hasKey g.target k = true) := by
    intro s'
    constructor
    · exact fun hs => canBeSolvedRes_isSome_defined hs
    · exact fun hd => canBeSolvedRes_defined_of_isSome hd
  refine ⟨?_, hiff⟩
  obtain ⟨a, ha, k, hk, hmiss⟩ := h
  have hkmax : k ∈ keysOf g.maxPerRound :=
    mem_keysOf_maxResources.2 ⟨a, mem_sactions.2 ha, hk⟩
  cases hcbs : canBeSolvedG g s with
  | none => rfl
  | some b =>
    exfalso
    have hs : (canBeSolvedG g s).isSome = true := by rw [hcbs]; rfl
    obtain ⟨h1, h2⟩ := (hiff s).1 hs k hkmax
    rcases hmiss with hm | hm
    · exact absurd (h1.symm.trans hm) (by simp)
    · exact absurd (h2.symm.trans hm) (by simp)

/-- Concrete game for the C10 witness: the action rewards kind `C`, which the
target does not mention. -/
def gC10 : Game :=
  ⟨1, 1, [('P', 1)], [('D', 2)], [⟨[('P', 1)], [('C', 1)]⟩]⟩

def sC10 : GameSequence := ⟨[('P', 1), ('C', 0)], []⟩

/-- Witness for C10 at a concrete input. -/
theorem c10_can_be_solved_keyerror_witness :
    canBeSolvedG gC10 sC10 = none ∧
    ∀ s' : GameSequence, ((canBeSolvedG gC10 s').isSome = true ↔
      ∀ k ∈ keysOf gC10.maxPerRound,
        hasKey s'.resources k = true ∧ hasKey gC10.target k = true) :=
  c10_can_be_solved_keyerror (by decide)

/-! ### simulate_sequence -/

/-- Cost phase of one `simulate_sequence` action: subtract each cost entry
(`current[k] -= c`, raising on a missing key), and return Python `None`
(modelled `some none`) as soon as the freshly assigned quantity is
negative. -/
def simSub (d : RDict) : RDict → Option (Option RDict)
  | [] => some (some d)
  | p :: rest =>
    match findVal d p.1 with
    | none => none
    | some v =>
      if v - p.2 < 0 then some none
      else simSub (setVal d p.1 (v - p.2)) rest

/-- The cost-then-reward phase of one `simulate_sequence` action. -/
def simAct (d : RDict) (a : Action) : Option (Option RDict) :=
  match simSub d a.cost with
  | none => none
  | some none => some none
  | some (some d1) => (addReward d1 a.reward).map some

/-- The loop of `Game.simulate_sequence`.  The `round` counter is
initialised to 0 and — exactly as in the source — never incremented; the
boundary test `round % apr == 0 and round != 0` still raises
`ZeroDivisionError` when `actions_per_round` is 0. -/
def simLoop (g : Game) (round : Nat) : RDict → List Action → Option (Option RDict)
  | d, [] => some (some d)
  | d, a :: rest =>
    if g.apr = 0 then none
    else
      match (if round % g.apr = 0 ∧ round ≠ 0 then advanceRound g.start d
             else some d) with
      | none => none
      | some d0 =>
        match simAct d0 a with
        | none => none
        | some none => some none
        | some (some d2) => simLoop g round d2 rest

/-- `Game.simulate_sequence`: replay from a copy of the start vector. -/
def simulateSequence (g : Game) (s : GameSequence) : Option (Option RDict) :=
  simLoop g 0 g.start s.sequence

/-- The plain fold described by claim C9: the start vector with each
action's costs subtracted and rewards added in order, `None` as soon as a
cost subtraction goes negative, no round-boundary transformation, and no
dependence on `rounds` or `actions_per_round`. -/
def plainApply : RDict → List Action → Option (Option RDict)
  | d, [] => some (some d)
  | d, a :: rest =>
    match simAct d a with
    | none => none
    | some none => some none
    | some (some d2) => plainApply d2 rest

theorem simLoop_zero_eq_plain {g : Game} (h : ¬g.apr = 0) :
    ∀ (l : List Action) (d : RDict), simLoop g 0 d l = plainApply d l := by
  intro l
  induction l with
  | nil => intro d; rfl
  | cons a rest ih =>
    intro d
    unfold simLoop plainApply
    rw [if_neg h]
    have hcond : ¬(0 % g.apr = 0 ∧ (0 : Nat) ≠ 0) := by simp
    rw [if_neg hcond]
    show (match simAct d a with
      | none => none
      | some none => some none
      | some (some d2) => simLoop g 0 d2 rest) =
      (match simAct d a with
      | none => none
      | some none => some none
      | some (some d2) => plainApply d2 rest)
    cases simAct d a with
    | none => rfl
    | some o =>
      cases o with
      | none => rfl
      | some d2 => exact ih d2

/-! ### Claim C9 -/

/-- Concrete game for the C9 counterexample: `actions_per_round = 0`. -/
def gC9 : Game := ⟨1, 0, [('P', 1)], [('C', 1)], [⟨[('P', 1)], [('P', 0)]⟩]⟩

def sC9 : GameSequence := ⟨[('P', 1)], [⟨[('P', 1)], [('P', 0)]⟩]⟩

/-- Counterexample to claim C9 as stated: with `actions_per_round = 0` the
boundary test `round % actions_per_round` raises `ZeroDivisionError` on the
very first action, so `simulate_sequence` is NOT independent of
`actions_per_round` and does not equal the plain cost/reward fold there. -/
theorem c9_counterexample :
    simulateSequence gC9 sC9 = none ∧
    plainApply gC9.start sC9.sequence = some (some [('P', 0)]) ∧
    simulateSequence gC9 sC9 ≠ plainApply gC9.start sC9.sequence := by decide

/-- Claim C9 (amended): provided `actions_per_round ≠ 0`, the internal round
counter of `simulate_sequence` stays 0, so no round-boundary transformation
is ever applied: the result is exactly the plain fold that subtracts each
action's costs (Python `None` as soon as a quantity goes negative) and adds
its rewards in order — independent of `rounds` and of the (nonzero) value of
`actions_per_round`, and hence different from the search engine's own replay
rule whenever a round boundary matters. -/
theorem c9_simulate_ignores_rounds (g : Game) (s : GameSequence)
    (h : ¬g.apr = 0) :
    simulateSequence g s = plainApply g.start s.sequence :=
  simLoop_zero_eq_plain h s.sequence g.start

/-- Witness for the amended C9 at a concrete input (two actions crossing a
would-be round boundary of the search engine's replay rule). -/
theorem c9_simulate_ignores_rounds_witness :
    simulateSequence ⟨2, 1, [('P', 3), ('H', 4)], [('C', 1)],
        [⟨[('P', 1)], [('H', 1)]⟩]⟩
      ⟨[('P', 3), ('H', 4)], [⟨[('P', 1)], [('H', 1)]⟩, ⟨[('P', 1)], [('H', 1)]⟩]⟩
    = plainApply [('P', 3), ('H', 4)]
        [⟨[('P', 1)], [('H', 1)]⟩, ⟨[('P', 1)], [('H', 1)]⟩] :=
  c9_simulate_ignores_rounds _ _ (by decide)

/-! ### Game.solve (greedy) -/

/-- The per-slot scan of `Game.solve` over the sorted catalogue.  The guard
is `state.can_perform_action(action) and not all([... for resource in
action.reward])`: when `can_perform_action` is False the conjunction
short-circuits and the scan moves on; when it is True, Python evaluates the
second conjunct, whose comprehension iterates over `action.reward` — a
`Resources` object with no `__iter__` — raising `TypeError` before any
action can be committed.  Both that `TypeError` and a `KeyError` inside
`can_perform_action` are modelled as `none`; `some ()` means the scan fell
through every action without committing one (so the resources and the
action history never change anywhere in `solve`). -/
def scanSlot (res : RDict) : List Action → Option Unit
  | [] => some ()
  | a :: rest => do
    let cp ← canPerformAction res a.cost
    if cp then none else scanSlot res rest

/-- The inner `for _ in range(actions_per_round)` loop of `Game.solve`:
scan, then break out when solved.  Returns the break flag. -/
def solveSlots (g : Game) (res : RDict) : Nat → Option Bool
  | 0 => some false
  | n + 1 => do
    let _ ← scanSlot res g.sactions
    let sv ← isSolvedB g.target res
    if sv then some true else solveSlots g res n

/-- The outer `for _ in range(rounds)` loop of `Game.solve`; since the scan
can never commit an action (see `scanSlot`), the returned
`state.sequence` is `[]` whenever the loop finishes without raising. -/
def solveRounds (g : Game) (res : RDict) : Nat → Option (List Action)
  | 0 => some []
  | n + 1 => do
    let _ ← solveSlots g res g.apr
    let sv ← isSolvedB g.target res
    if sv then some []
    else
      match advanceRound g.start res with
      | none => none
      | some res' => solveRounds g res' n

/-- `Game.solve`. -/
def solveGame (g : Game) : Option (List Action) :=
  solveRounds g g.start g.rounds

/-! ### Claim C5 -/

/-- The concrete scenario of spec §8: 3 rounds, 4 actions per round. -/
def gTest : Game :=
  ⟨3, 4,
    [('P', 10), ('A', 3), ('C', 0), ('D', 0), ('N', 0)],
    [('C', 5), ('D', 2), ('N', 1)],
    [⟨[('D', 1), ('N', 1)], [('C', 3)]⟩,
     ⟨[('D', 1)], [('N', 3), ('C', 2)]⟩,
     ⟨[('C', 1)], [('N', 2)]⟩,
     ⟨[('P', 1)], [('C', 3)]⟩,
     ⟨[('P', 1)], [('D', 2)]⟩]⟩

/-- Claim C5 is about code that cannot run: on the spec's own concrete
scenario, `solve` raises `TypeError` (`'Resources' object is not iterable`)
at the first slot whose scan reaches an applicable action — the guard
iterates `action.reward` instead of `action.reward.lookup` — so the greedy
entry point never commits an action, never returns a sequence, and the
described behaviour (fill slots, stop when solved, apply the Round Advancer)
is unreachable.  An applicable action does exist at the start, so the
failure is the `TypeError` path, not an empty scan. -/
theorem c5_solve_raises :
    solveGame gTest = none ∧
    (gTest.sactions.any
      (fun a => canPerformAction gTest.start a.cost = some true)) = true := by
  decide

/-! ### The branch-and-bound search (find_min_steps) -/

/-- The shared mutable context of `find_min_steps`: the memo table (an
insertion-ordered dict keyed by `(remaining_rounds, tuple(sorted(items)))`)
and the `best_solution` slot. -/
structure SearchCtx where
  memo : List ((Nat × RDict) × Option GameSequence)
  best : Option GameSequence
deriving DecidableEq, Repr

/-- Stable ascending insertion for `tuple(sorted(d.items()))`: Python sorts
pairs lexicographically (key, then value). -/
def insertPair (p : Char × Int) : RDict → RDict
  | [] => [p]
  | q :: rest =>
    if p.1 < q.1 ∨ (p.1 = q.1 ∧ p.2 < q.2) then p :: q :: rest
    else q :: insertPair p rest

/-- `tuple(sorted(state.resources.lookup.items()))`. -/
def canonR (d : RDict) : RDict :=
  d.foldl (fun acc p => insertPair p acc) []

/-- The memo key `(remaining_rounds, canonical items)`. -/
def memoKey (rem : Nat) (res : RDict) : Nat × RDict := (rem, canonR res)

def lookupMemo (memo : List ((Nat × RDict) × Option GameSequence))
    (key : Nat × RDict) : Option (Option GameSequence) :=
  match memo with
  | [] => none
  | e :: rest => if e.1 = key then some e.2 else lookupMemo rest key

/-- Python dict assignment: overwrite in place, or append a fresh key. -/
def insertMemo (memo : List ((Nat × RDict) × Option GameSequence))
    (key : Nat × RDict) (v : Option GameSequence) :
    List ((Nat × RDict) × Option GameSequence) :=
  match memo with
  | [] => [(key, v)]
  | e :: rest => if e.1 = key then (key, v) :: rest else e :: insertMemo rest key v

/-- The opening guard of `backtrack`:
`best is not None and (len(state.sequence) > len(best.sequence) or
state.resources.lookup['P'] <= best.resources.lookup['P'])`.
`or` short-circuits, so the `'P'` lookups (which can raise) only run when
the length test fails. -/
def pruneGuard (best : Option GameSequence) (state : GameSequence) :
    Option Bool :=
  match best with
  | none => some false
  | some b =>
    if b.sequence.length < state.sequence.length then some true
    else do
      let p ← findVal state.resources 'P'
      let pb ← findVal b.resources 'P'
      pure (decide (p ≤ pb))

/-- The three early-return checks of `backtrack`, in source order: the
best-solution prune (returns `None` without memoising), the memo hit, and
the solved check (which records `best_solution = state`).  `some (some out)`
is an early return, `some none` means fall through, `none` an exception. -/
def preChecks (g : Game) (rem : Nat) (state : GameSequence) (ctx : SearchCtx) :
    Option (Option (Option GameSequence × SearchCtx)) := do
  let pg ← pruneGuard ctx.best state
  if pg then pure (some (none, ctx))
  else
    match lookupMemo ctx.memo (memoKey rem state.resources) with
    | some v => pure (some (v, ctx))
    | none => do
      let sv ← isSolvedB g.target state.resources
      if sv then pure (some (some state, ⟨ctx.memo, some state⟩))
      else pure none

/-- `min_steps = steps if steps is not None and (min_steps is None or
len(steps.sequence) < len(min_steps.sequence)) else min_steps`. -/
def combineMin (ms steps : Option GameSequence) : Option GameSequence :=
  match steps with
  | none => ms
  | some s =>
    match ms with
    | none => some s
    | some m => if s.sequence.length < m.sequence.length then some s else some m

/-- The `for action in self.actions` loop of `backtrack`: try each
applicable action on a copy of the state, recurse (`recur` is the recursive
call one level deeper), and fold the shortest result into `min_steps`. -/
def loopActs (g : Game)
    (recur : GameSequence → SearchCtx → Option (Option GameSequence × SearchCtx))
    (state : GameSequence) :
    List Action → Option GameSequence → SearchCtx →
      Option (Option GameSequence × SearchCtx)
  | [], ms, ctx => some (ms, ctx)
  | a :: rest, ms, ctx => do
    let cp ← canPerformAction state.resources a.cost
    if cp then do
      let st' ← applyActionSeq g state a
      let r ← recur st' ctx
      loopActs g recur state rest (combineMin ms r.1) r.2
    else loopActs g recur state rest ms ctx

/-- `backtrack(remaining_rounds, state)`, with the memo table and
`best_solution` threaded explicitly.  At `remaining_rounds = 0` the
`remaining_rounds == 0 or not can_be_solved` test short-circuits (the bound
is not evaluated) and returns `None` without memoising; otherwise the bound
runs, the action loop expands, and the result is memoised. -/
def backtrackN (g : Game) : Nat → GameSequence → SearchCtx →
    Option (Option GameSequence × SearchCtx)
  | 0 => fun state ctx => do
    match ← preChecks g 0 state ctx with
    | some out => pure out
    | none => pure (none, ctx)
  | r + 1 => fun state ctx => do
    match ← preChecks g (r + 1) state ctx with
    | some out => pure out
    | none => do
      let cbs ← canBeSolvedG g state
      if !cbs then pure (none, ctx)
      else do
        let rc ← loopActs g (backtrackN g r) state g.sactions none ctx
        pure (rc.1,
          ⟨insertMemo rc.2.memo (memoKey (r + 1) state.resources) rc.1,
           rc.2.best⟩)

/-- `Game.find_min_steps`: run `backtrack` from the start state with the
full move budget, an empty memo table and no best solution.  (The wall-clock
timing and the memo-size statistic of the tuple the source returns are pure
I/O and are not modelled.) -/
def findMinSteps (g : Game) : Option (Option GameSequence × SearchCtx) :=
  backtrackN g (g.rounds * g.apr) ⟨g.start, []⟩ ⟨[], none⟩

/-! ### Replay and reachability, both following the search engine's rule -/

/-- Replay a list of actions exactly as the search engine commits moves:
each action must be applicable where it is taken, and the round-boundary
effect applies whenever the new move count is a positive multiple of
`actions_per_round`. -/
def replaySteps (g : Game) : GameSequence → List Action → Option GameSequence
  | s, [] => some s
  | s, a :: rest => do
    let cp ← canPerformAction s.resources a.cost
    if !cp then none
    else do
      let s' ← applyActionSeq g s a
      replaySteps g s' rest

/-- Replay from the start vector with an empty history. -/
def replaySeq (g : Game) (l : List Action) : Option GameSequence :=
  replaySteps g ⟨g.start, []⟩ l

/-- The state is reachable-solved within `n` further engine moves: either it
is already solved, or some catalogue action is applicable and one engine
step (apply + boundary effect) leads to a state solvable in `n - 1`. -/
inductive ReachSolved (g : Game) : GameSequence → Nat → Prop where
  | done {s : GameSequence} {n : Nat}
      (h : isSolvedB g.target s.resources = some true) : ReachSolved g s n
  | step {s s' : GameSequence} {n : Nat} {a : Action} (ha : a ∈ g.sactions)
      (hcp : canPerformAction s.resources a.cost = some true)
      (happ : applyActionSeq g s a = some s')
      (hr : ReachSolved g s' n) : ReachSolved g s (n + 1)

/-! ### Claim C1: counterexample -/

def aC1a : Action := ⟨[('A', 5)], [('A', 1), ('C', 1)]⟩
def aC1b : Action := ⟨[('P', 1)], [('C', 1)]⟩

/-- Counterexample game for C1: an action rewards the astronaut kind `'A'`,
so `'A'` enters `max_resources_per_round`, but the round boundary resets
`'A'` to its start value — a jump the per-move bound cannot see. -/
def gC1 : Game :=
  ⟨2, 2, [('A', 8), ('P', 9), ('C', 0)], [('A', 8), ('C', 1)], [aC1a, aC1b]⟩

/-- The state after playing `aC1a` from the start (1 move made, no boundary
yet): astronauts are down to 4, and 3 moves of budget remain. -/
def sC1 : GameSequence := ⟨[('A', 4), ('P', 9), ('C', 1)], [aC1a]⟩

/-- The solved state reached from `sC1` by one more move: `aC1b` is applied
and the round boundary then resets `'A'` to 8. -/
def sC1' : GameSequence := ⟨[('A', 8), ('P', 8), ('C', 2)], [aC1a, aC1b]⟩

/-- Counterexample to claim C1: `sC1` arises in the search as the engine's
own child of the root, the target is genuinely reachable from it within the
remaining budget of 3 moves (one application of `aC1b` suffices, because the
round boundary restores the astronauts), yet `can_be_solved` returns
`False`: `state['A'] + remaining * maxr['A'] = 4 + 3·1 < 8 = target['A']`.
The feasibility bound would prune this branch even though it leads to a
solution. -/
theorem c1_counterexample :
    canPerformAction gC1.start aC1a.cost = some true ∧
    applyActionSeq gC1 ⟨gC1.start, []⟩ aC1a = some sC1 ∧
    (3 : Int) ≤ remainingMoves gC1 sC1 ∧
    ReachSolved gC1 sC1 3 ∧
    canBeSolvedG gC1 sC1 = some false := by
  refine ⟨by decide, by decide, by decide, ?_, by decide⟩
  exact @ReachSolved.step gC1 sC1 sC1' 2 aC1b (by decide) (by decide)
    (by decide) (ReachSolved.done (by decide))

/-! ### Claim C2: counterexample -/

def aC2a : Action := ⟨[('P', 3)], [('C', 5)]⟩
def aC2b : Action := ⟨[('P', 1)], [('C', 1)]⟩

/-- Counterexample game for C2: two one-move solutions; the higher-rated
(tie, earlier) action burns more power. -/
def gC2 : Game := ⟨1, 1, [('P', 3), ('C', 0)], [('C', 1)], [aC2a, aC2b]⟩

/-- First solution found (via `aC2a`): power 0. -/
def sC2a : GameSequence := ⟨[('P', 0), ('C', 5)], [aC2a]⟩

/-- Later solution (via `aC2b`): same length, power 2. -/
def sC2b : GameSequence := ⟨[('P', 2), ('C', 1)], [aC2b]⟩

/-- Counterexample to claim C2: within the actual `find_min_steps` run on
`gC2`, after the first child call has recorded `sC2a` as best, the second
child call — receiving `best = sC2a` — finds the equal-length solution
`sC2b` and overwrites the best slot with it (its power 2 exceeds 0, so the
prune guard does not fire).  The run ends with `best_solution = sC2b` even
though the equal-length `sC2a` was found first, refuting "ties keep the
first found". -/
theorem c2_counterexample :
    backtrackN gC2 0 sC2a ⟨[], none⟩ = some (some sC2a, ⟨[], some sC2a⟩) ∧
    backtrackN gC2 0 sC2b ⟨[], some sC2a⟩ =
      some (some sC2b, ⟨[], some sC2b⟩) ∧
    sC2b.sequence.length = sC2a.sequence.length ∧
    sC2b ≠ sC2a ∧
    findMinSteps gC2 =
      some (some sC2a,
        ⟨[((1, [('C', 0), ('P', 3)]), some sC2a)], some sC2b⟩) := by
  decide

/-! ### Claim C8: counterexample -/

def aC8 : Action := ⟨[('P', 1)], [('C', 1)]⟩

/-- Counterexample game for C8: the target needs 2 C; one round, but two
moves per round, and the best single-action reward is 1 C.  The claim's
premise `target > start + max_reward*rounds` holds (2 > 0 + 1·1). -/
def gC8 : Game := ⟨1, 2, [('P', 9), ('C', 0)], [('C', 2)], [aC8]⟩

def sC8 : GameSequence := ⟨[('P', 7), ('C', 2)], [aC8, aC8]⟩

/-- Counterexample to claim C8: although the target demands more of `C` than
`max_reward_per_kind['C'] * rounds` can produce beyond the start, the bound
multiplies by the remaining MOVES (`rounds * actions_per_round`, the
misleadingly named `remaining_rounds`), so the root is NOT rejected — and
the search in fact expands it and returns a two-move solution. -/
theorem c8_counterexample :
    findVal gC8.target 'C' = some 2 ∧
    findVal gC8.start 'C' = some 0 ∧
    findVal gC8.maxPerRound 'C' = some 1 ∧
    gC8.rounds = 1 ∧
    ((0 : Int) + 1 * 1 < 2) ∧
    canBeSolvedG gC8 ⟨gC8.start, []⟩ = some true ∧
    (findMinSteps gC8).map (fun out => out.1) = some (some sC8) := by
  decide

/-! ### Claim C4: counterexample -/

def aC4 : Action := ⟨[('P', 1)], [('C', 1)]⟩

/-- Counterexample game for C4: the start owns a decaying kind `'H'` that
round boundaries drive negative. -/
def gC4 : Game := ⟨2, 1, [('P', 5), ('H', 1), ('C', 0)], [('C', 2)], [aC4]⟩

def sC4 : GameSequence := ⟨[('P', 3), ('H', -3), ('C', 2)], [aC4, aC4]⟩

/-- Counterexample to claim C4: `find_min_steps` returns the sequence
`[aC4, aC4]`, but replaying it with the engine's own round-boundary rule
leaves `H = -1 < 0` after the first move — the decaying kind violates
nonnegativity at an intermediate step of the returned sequence. -/
theorem c4_counterexample :
    (findMinSteps gC4).map (fun out => out.1) = some (some sC4) ∧
    sC4.sequence = [aC4] ++ [aC4] ∧
    replaySeq gC4 [aC4] = some ⟨[('P', 4), ('H', -1), ('C', 1)], [aC4]⟩ ∧
    findVal [('P', 4), ('H', -1), ('C', 1)] 'H' = some (-1) ∧
    ¬((0 : Int) ≤ -1) := by
  decide

/-! ### Small list/dict helper lemmas -/

theorem findVal_mem {d : RDict} {k : Char} {v : Int}
    (h : findVal d k = some v) : (k, v) ∈ d := by
  induction d with
  | nil => cases h
  | cons p rest ih =>
    obtain ⟨k₀, v₀⟩ := p
    by_cases hk : k₀ = k
    · subst hk
      rw [findVal_cons, if_pos rfl] at h
      cases h
      exact List.mem_cons_self _ _
    · rw [findVal_cons, if_neg hk] at h
      exact List.mem_cons_of_mem _ (ih h)

theorem all_false_of_mem {α : Type} {l : List α} {p : α → Bool} {x : α}
    (hx : x ∈ l) (hpx : p x = false) : l.all p = false := by
  induction l with
  | nil => cases hx
  | cons y rest ih =>
    rw [List.mem_cons] at hx
    rcases hx with hx | hx
    · subst hx; simp [List.all_cons, hpx]
    · simp [List.all_cons, ih hx]

theorem findVal_of_mem_nodup {d : RDict} {k : Char} {v : Int}
    (hmem : (k, v) ∈ d) (hnd : (keysOf d).Nodup) : findVal d k = some v := by
  induction d with
  | nil => cases hmem
  | cons p rest ih =>
    obtain ⟨k₀, v₀⟩ := p
    simp only [keysOf_cons, List.nodup_cons] at hnd
    rw [List.mem_cons] at hmem
    rcases hmem with hmem | hmem
    · cases hmem
      rw [findVal_cons, if_pos rfl]
    · have hk : k₀ ≠ k := by
        intro hk
        subst hk
        exact hnd.1 (List.mem_map_of_mem _ hmem)
      rw [findVal_cons, if_neg hk]
      exact ih hmem hnd.2

theorem remainingMoves_nil (g : Game) (res : RDict) :
    remainingMoves g ⟨res, []⟩ = (g.rounds * g.apr : Int) := by
  simp [remainingMoves]

/-! ### Claim C8: amended theorem -/

/-- Claim C8 (amended): the bound multiplies the per-kind maximum reward by
the remaining number of MOVES, `rounds * actions_per_round` (the value of
the misleadingly named `remaining_rounds`), not by `rounds`.  When the
target demands, for some kind `k` produced by the catalogue, more than
`max_reward_per_kind[k] * (rounds * actions_per_round)` beyond the start
quantity, the Feasibility Bound rejects the initial state at the root of
`find_min_steps`: the search returns no solution immediately, with an empty
memo table and no expansion.  (Definedness side conditions: every target
kind is present in the start vector, every catalogue reward kind is present
in the start and target vectors.) -/
theorem c8_root_rejected {g : Game} {k : Char} {u t m : Int}
    (htKeys : ∀ k' ∈ keysOf g.target, hasKey g.start k' = true)
    (hdef : ∀ k' ∈ keysOf g.maxPerRound,
      hasKey g.start k' = true ∧ hasKey g.target k' = true)
    (hs : findVal g.start k = some u) (ht : findVal g.target k = some t)
    (hv : findVal g.maxPerRound k = some m) (hmv : 0 ≤ m)
    (hgap : u + (g.rounds * g.apr : Int) * m < t) :
    canBeSolvedG g ⟨g.start, []⟩ = some false ∧
    findMinSteps g = some (none, ⟨[], none⟩) := by
  have hbudget : (0 : Int) ≤ (g.rounds * g.apr : Int) := Int.natCast_nonneg _
  have hsvtv : u < t :=
    lt_of_le_of_lt (le_add_of_nonneg_right (mul_nonneg hbudget hmv)) hgap
  have hgetS : getD0 g.start k = u := by simp [getD0, hs]
  have hgetT : getD0 g.target k = t := by simp [getD0, ht]
  have hsolved : isSolvedB g.target g.start = some false := by
    rw [isSolvedB, canPerformAction_eq_all _ _ htKeys]
    congr 1
    refine all_false_of_mem (findVal_mem ht) ?_
    simp only [hgetS]
    simp [not_le.2 hsvtv]
  have hcbs : canBeSolvedG g ⟨g.start, []⟩ = some false := by
    rw [canBeSolvedG, remainingMoves_nil,
      canBeSolvedRes_eq_all _ _ _ _ hdef]
    congr 1
    refine all_false_of_mem (findVal_mem hv) ?_
    simp only [hgetS, hgetT]
    simp [not_le.2 hgap]
  refine ⟨hcbs, ?_⟩
  have hpre : ∀ rem, preChecks g rem ⟨g.start, []⟩ ⟨[], none⟩ = some none := by
    intro rem
    simp [preChecks, pruneGuard, lookupMemo, hsolved]
  unfold findMinSteps
  cases hn : g.rounds * g.apr with
  | zero =>
    simp [backtrackN, hpre 0]
  | succ r =>
    simp [backtrackN, hpre (r + 1), hcbs]

/-- Concrete game for the C8 amended witness: target 3 C, budget 2 moves,
best reward 1 C per move. -/
def gC8w : Game := ⟨1, 2, [('P', 0), ('C', 0)], [('C', 3)], [⟨[('P', 1)], [('C', 1)]⟩]⟩

/-- Witness for the amended C8 at a concrete input. -/
theorem c8_root_rejected_witness :
    canBeSolvedG gC8w ⟨gC8w.start, []⟩ = some false ∧
    findMinSteps gC8w = some (none, ⟨[], none⟩) :=
  c8_root_rejected (g := gC8w) (k := 'C') (u := 0) (t := 3) (m := 1)
    (by decide) (by decide) (by decide) (by decide) (by decide) (by decide)
    (by decide)

/-! ### Claim C2: amended theorem (evolution of best_solution) -/

/-- How one recorded best may relate to the next: unchanged, or replaced by
a solution that is no longer and strictly richer in power. -/
def bestR (b b' : GameSequence) : Prop :=
  b' = b ∨ (b'.sequence.length ≤ b.sequence.length ∧
    ∃ p p', findVal b.resources 'P' = some p ∧
      findVal b'.resources 'P' = some p' ∧ p < p')

theorem bestR_refl (b : GameSequence) : bestR b b := Or.inl rfl

theorem bestR_trans {b₁ b₂ b₃ : GameSequence} (h₁ : bestR b₁ b₂)
    (h₂ : bestR b₂ b₃) : bestR b₁ b₃ := by
  rcases h₁ with rfl | ⟨hl₁, p₁, p₂, hp₁, hp₂, hlt₁⟩
  · exact h₂
  · rcases h₂ with rfl | ⟨hl₂, q₂, q₃, hq₂, hq₃, hlt₂⟩
    · exact Or.inr ⟨hl₁, p₁, p₂, hp₁, hp₂, hlt₁⟩
    · rw [hp₂] at hq₂
      cases hq₂
      exact Or.inr ⟨le_trans hl₂ hl₁, p₁, q₃, hp₁, hq₃, lt_trans hlt₁ hlt₂⟩

/-- The best slot never loses its value, and any replacement satisfies
`bestR`. -/
def BestEvol (ctx ctx' : SearchCtx) : Prop :=
  ∀ b, ctx.best = some b → ∃ b', ctx'.best = some b' ∧ bestR b b'

theorem BestEvol_refl (ctx : SearchCtx) : BestEvol ctx ctx :=
  fun b hb => ⟨b, hb, bestR_refl b⟩

theorem BestEvol_trans {c₁ c₂ c₃ : SearchCtx} (h₁ : BestEvol c₁ c₂)
    (h₂ : BestEvol c₂ c₃) : BestEvol c₁ c₃ := by
  intro b hb
  obtain ⟨b₂, hb₂, hr₂⟩ := h₁ b hb
  obtain ⟨b₃, hb₃, hr₃⟩ := h₂ b₂ hb₂
  exact ⟨b₃, hb₃, bestR_trans hr₂ hr₃⟩

theorem BestEvol_of_best_eq {c₁ c₂ : SearchCtx} (h : c₂.best = c₁.best) :
    BestEvol c₁ c₂ := fun b hb => ⟨b, h.trans hb, bestR_refl b⟩

theorem pruneGuard_false_spec {b : GameSequence} {state : GameSequence}
    (h : pruneGuard (some b) state = some false) :
    state.sequence.length ≤ b.sequence.length ∧
    ∃ p pb, findVal state.resources 'P' = some p ∧
      findVal b.resources 'P' = some pb ∧ pb < p := by
  replace h : (if b.sequence.length < state.sequence.length then
      (some true : Option Bool)
    else do
      let p ← findVal state.resources 'P'
      let pb ← findVal b.resources 'P'
      pure (decide (p ≤ pb))) = some false := h
  by_cases hlen : b.sequence.length < state.sequence.length
  · rw [if_pos hlen] at h
    cases h
  · rw [if_neg hlen] at h
    refine ⟨le_of_not_lt hlen, ?_⟩
    cases hp : findVal state.resources 'P' with
    | none => rw [hp] at h; cases h
    | some p =>
      cases hpb : findVal b.resources 'P' with
      | none => rw [hp, hpb] at h; cases h
      | some pb =>
        rw [hp, hpb] at h
        simp only [Option.pure_def, Option.bind_eq_bind, Option.some_bind,
          Option.some_inj] at h
        refine ⟨p, pb, rfl, rfl, ?_⟩
        have : ¬(p ≤ pb) := by
          intro hle
          rw [decide_eq_true hle] at h
          cases h
        exact lt_of_not_le this

theorem preChecks_bestEvol {g : Game} {rem : Nat} {state : GameSequence}
    {ctx : SearchCtx} {out : Option GameSequence × SearchCtx}
    (h : preChecks g rem state ctx = some (some out)) : BestEvol ctx out.2 := by
  unfold preChecks at h
  cases hpg : pruneGuard ctx.best state with
  | none => rw [hpg] at h; cases h
  | some pg =>
    rw [hpg] at h
    cases pg with
    | true =>
      simp only [Option.pure_def, Option.bind_eq_bind, Option.some_bind,
        if_true, Option.some_inj] at h
      cases h
      exact BestEvol_refl ctx
    | false =>
      simp only [Option.pure_def, Option.bind_eq_bind, Option.some_bind,
        Bool.false_eq_true, if_false] at h
      cases hm : lookupMemo ctx.memo (memoKey rem state.resources) with
      | some v =>
        rw [hm] at h
        simp only [Option.some_inj] at h
        cases h
        exact BestEvol_refl ctx
      | none =>
        rw [hm] at h
        cases hsv : isSolvedB g.target state.resources with
        | none => rw [hsv] at h; cases h
        | some sv =>
          rw [hsv] at h
          cases sv with
          | false => simp at h
          | true =>
            simp only [Option.pure_def, Option.bind_eq_bind, Option.some_bind,
              if_true, Option.some_inj] at h
            cases h
            intro b hb
            rw [hb] at hpg
            obtain ⟨hlen, p, pb, hp, hpb, hlt⟩ := pruneGuard_false_spec hpg
            exact ⟨state, rfl, Or.inr ⟨hlen, pb, p, hpb, hp, hlt⟩⟩

theorem loopActs_bestEvol {g : Game}
    {recur : GameSequence → SearchCtx → Option (Option GameSequence × SearchCtx)}
    {state : GameSequence}
    (hrec : ∀ st ctx out, recur st ctx = some out → BestEvol ctx out.2) :
    ∀ (l : List Action) (ms : Option GameSequence) (ctx : SearchCtx)
      (out : Option GameSequence × SearchCtx),
      loopActs g recur state l ms ctx = some out → BestEvol ctx out.2 := by
  intro l
  induction l with
  | nil =>
    intro ms ctx out h
    unfold loopActs at h
    simp only [Option.some_inj] at h
    cases h
    exact BestEvol_refl ctx
  | cons a rest ih =>
    intro ms ctx out h
    unfold loopActs at h
    cases hcp : canPerformAction state.resources a.cost with
    | none => rw [hcp] at h; cases h
    | some cp =>
      rw [hcp] at h
      cases cp with
      | false =>
        simp only [Option.pure_def, Option.bind_eq_bind, Option.some_bind,
          Bool.false_eq_true, if_false] at h
        exact ih _ _ _ h
      | true =>
        simp only [Option.pure_def, Option.bind_eq_bind, Option.some_bind,
          if_true] at h
        cases hap : applyActionSeq g state a with
        | none => rw [hap] at h; cases h
        | some st' =>
          rw [hap] at h
          simp only [Option.some_bind] at h
          cases hr : recur st' ctx with
          | none => rw [hr] at h; cases h
          | some r =>
            rw [hr] at h
            simp only [Option.some_bind] at h
            exact BestEvol_trans (hrec st' ctx r hr) (ih _ _ _ h)

theorem backtrackN_bestEvol (g : Game) :
    ∀ (rem : Nat) (state : GameSequence) (ctx : SearchCtx)
      (out : Option GameSequence × SearchCtx),
      backtrackN g rem state ctx = some out → BestEvol ctx out.2 := by
  intro rem
  induction rem with
  | zero =>
    intro state ctx out h
    unfold backtrackN at h
    cases hpre : preChecks g 0 state ctx with
    | none => rw [hpre] at h; cases h
    | some pre =>
      rw [hpre] at h
      cases pre with
      | some o =>
        simp only [Option.pure_def, Option.some_bind, Option.some_inj] at h
        cases h
        exact preChecks_bestEvol hpre
      | none =>
        simp only [Option.pure_def, Option.some_bind, Option.some_inj] at h
        cases h
        exact BestEvol_refl ctx
  | succ r ih =>
    intro state ctx out h
    unfold backtrackN at h
    cases hpre : preChecks g (r + 1) state ctx with
    | none => rw [hpre] at h; cases h
    | some pre =>
      rw [hpre] at h
      cases pre with
      | some o =>
        simp only [Option.pure_def, Option.some_bind, Option.some_inj] at h
        cases h
        exact preChecks_bestEvol hpre
      | none =>
        simp only [Option.pure_def, Option.some_bind] at h
        cases hcbs : canBeSolvedG g state with
        | none => rw [hcbs] at h; cases h
        | some cbs =>
          rw [hcbs] at h
          simp only [Option.bind_eq_bind, Option.some_bind] at h
          cases cbs with
          | false =>
            rw [show (!false) = true from rfl, if_pos rfl] at h
            cases h
            exact BestEvol_refl ctx
          | true =>
            rw [show (!true) = false from rfl, if_neg Bool.false_ne_true] at h
            cases hrc : loopActs g (backtrackN g r) state g.sactions none ctx with
            | none => rw [hrc] at h; cases h
            | some rc =>
              rw [hrc] at h
              simp only [Option.some_bind, Option.some_inj] at h
              cases h
              have h1 : BestEvol ctx rc.2 :=
                loopActs_bestEvol (fun st c o hh => ih st c o hh) _ _ _ _ hrc
              exact BestEvol_trans h1 (BestEvol_of_best_eq rfl)

/-- Claim C2 (amended): once a best solution `b` has been recorded, any
later point of the same search holds a best solution `b'` that is either
still `b` or a replacement whose sequence is NO LONGER (not necessarily
strictly shorter) and whose final power quantity `'P'` is strictly greater —
the prune guard `len(state) > len(best) or P(state) <= P(best)` lets an
equal-length, higher-power solved state overwrite the recorded best, so
ties do not always keep the first found. -/
theorem c2_best_only_improves {g : Game} {rem : Nat} {state : GameSequence}
    {ctx : SearchCtx} {out : Option GameSequence × SearchCtx}
    {b : GameSequence}
    (h : backtrackN g rem state ctx = some out) (hb : ctx.best = some b) :
    ∃ b', out.2.best = some b' ∧
      (b' = b ∨ (b'.sequence.length ≤ b.sequence.length ∧
        ∃ p p', findVal b.resources 'P' = some p ∧
          findVal b'.resources 'P' = some p' ∧ p < p')) :=
  backtrackN_bestEvol g rem state ctx out h b hb

/-- Witness for the amended C2, at the concrete second child call of the
`gC2` search: the recorded best `sC2a` is replaced by the equal-length,
higher-power `sC2b`. -/
theorem c2_best_only_improves_witness :
    ∃ b', (⟨[], some sC2b⟩ : SearchCtx).best = some b' ∧
      (b' = sC2a ∨ (b'.sequence.length ≤ sC2a.sequence.length ∧
        ∃ p p', findVal sC2a.resources 'P' = some p ∧
          findVal b'.resources 'P' = some p' ∧ p < p')) := by
  have h := @c2_best_only_improves gC2 0 sC2b ⟨[], some sC2a⟩
    (some sC2b, ⟨[], some sC2b⟩) sC2a (by decide) rfl
  exact h

/-! ### Structural lemmas about one engine step -/

theorem applyActionSeq_cases {g : Game} {s : GameSequence} {a : Action}
    {s' : GameSequence} (h : applyActionSeq g s a = some s') :
    ∃ r1 r2, subCost s.resources a.cost = some r1 ∧
      addReward r1 a.reward = some r2 ∧ ¬g.apr = 0 ∧
      s'.sequence = s.sequence ++ [a] ∧
      ((¬((s.sequence ++ [a]).length % g.apr = 0 ∧
          (s.sequence ++ [a]).length ≠ 0) ∧ s'.resources = r2) ∨
       (((s.sequence ++ [a]).length % g.apr = 0 ∧
          (s.sequence ++ [a]).length ≠ 0) ∧
        advanceRound g.start r2 = some s'.resources)) := by
  replace h : (do
      let r1 ← subCost s.resources a.cost
      let r2 ← addReward r1 a.reward
      if g.apr = 0 then none
      else if (s.sequence ++ [a]).length % g.apr = 0 ∧
          (s.sequence ++ [a]).length ≠ 0 then
        (advanceRound g.start r2).map
          (fun r3 => (⟨r3, s.sequence ++ [a]⟩ : GameSequence))
      else pure ⟨r2, s.sequence ++ [a]⟩) = some s' := h
  cases h1 : subCost s.resources a.cost with
  | none => rw [h1] at h; cases h
  | some r1 =>
    rw [h1] at h
    simp only [Option.bind_eq_bind, Option.some_bind] at h
    cases h2 : addReward r1 a.reward with
    | none => rw [h2] at h; cases h
    | some r2 =>
      rw [h2] at h
      simp only [Option.some_bind] at h
      by_cases h0 : g.apr = 0
      · rw [if_pos h0] at h; cases h
      · rw [if_neg h0] at h
        by_cases hb : (s.sequence ++ [a]).length % g.apr = 0 ∧
            (s.sequence ++ [a]).length ≠ 0
        · rw [if_pos hb] at h
          cases h3 : advanceRound g.start r2 with
          | none => rw [h3] at h; cases h
          | some r3 =>
            rw [h3] at h
            simp only [Option.map_some', Option.some_inj] at h
            subst h
            exact ⟨r1, r2, rfl, h2, h0, rfl, Or.inr ⟨hb, h3⟩⟩
        · rw [if_neg hb] at h
          simp only [Option.pure_def, Option.some_inj] at h
          subst h
          exact ⟨r1, r2, rfl, h2, h0, rfl, Or.inl ⟨hb, rfl⟩⟩

theorem applyActionSeq_seq {g : Game} {s : GameSequence} {a : Action}
    {s' : GameSequence} (h : applyActionSeq g s a = some s') :
    s'.sequence = s.sequence ++ [a] := by
  obtain ⟨_, _, _, _, _, hseq, _⟩ := applyActionSeq_cases h
  exact hseq

theorem applyActionSeq_keys {g : Game} {s : GameSequence} {a : Action}
    {s' : GameSequence} (h : applyActionSeq g s a = some s') :
    keysOf s'.resources = keysOf s.resources := by
  obtain ⟨r1, r2, h1, h2, _, _, hcase⟩ := applyActionSeq_cases h
  have hk12 : keysOf r2 = keysOf s.resources := by
    rw [addReward_keys h2, subCost_keys h1]
  rcases hcase with ⟨_, hres⟩ | ⟨_, hadv⟩
  · rw [hres, hk12]
  · rw [(advanceRound_spec hadv).1, hk12]

theorem addReward_mono {c : RDict} (hc : ∀ p ∈ c, 0 ≤ p.2) {d d' : RDict}
    (h : addReward d c = some d') :
    ∀ (k : Char) (v' : Int), findVal d' k = some v' →
      ∃ v, findVal d k = some v ∧ v ≤ v' := by
  induction c generalizing d with
  | nil =>
    simp [addReward] at h
    subst h
    exact fun k v' hv => ⟨v', hv, le_refl _⟩
  | cons p rest ih =>
    simp only [addReward, Option.bind_eq_bind, Option.bind_eq_some] at h
    obtain ⟨v₁, hv₁, h2⟩ := h
    intro k v' hv'
    obtain ⟨v, hv, hle⟩ :=
      ih (fun q hq => hc q (List.mem_cons_of_mem _ hq)) h2 k v' hv'
    rw [findVal_setVal] at hv
    by_cases hk : k = p.1
    · rw [if_pos hk, hv₁] at hv
      simp only [Option.map_some', Option.some_inj] at hv
      subst hk
      refine ⟨v₁, hv₁, ?_⟩
      have hp2 : 0 ≤ p.2 := hc p (by left)
      have : v₁ ≤ v := by rw [← hv]; exact le_add_of_nonneg_right hp2
      exact le_trans this hle
    · rw [if_neg hk] at hv
      exact ⟨v, hv, hle⟩

/-! ### Replay lemmas -/

theorem replaySteps_append (g : Game) (l₁ l₂ : List Action) :
    ∀ s, replaySteps g s (l₁ ++ l₂) =
      (replaySteps g s l₁).bind (fun s₁ => replaySteps g s₁ l₂) := by
  induction l₁ with
  | nil => intro s; rfl
  | cons a rest ih =>
    intro s
    cases hcp : canPerformAction s.resources a.cost with
    | none => simp [replaySteps, hcp]
    | some cp =>
      cases cp with
      | false => simp [replaySteps, hcp]
      | true =>
        cases hap : applyActionSeq g s a with
        | none => simp [replaySteps, hcp, hap]
        | some s₁ => simp [replaySteps, hcp, hap, ih s₁]

/-- A sequence the engine could actually produce: replaying it from the
start succeeds and ends exactly in this state, and every action belongs to
the (sorted) catalogue. -/
def GoodSeq (g : Game) (s : GameSequence) : Prop :=
  replaySeq g s.sequence = some s ∧ ∀ a ∈ s.sequence, a ∈ g.sactions

def GoodOpt (g : Game) (o : Option GameSequence) : Prop :=
  ∀ s, o = some s → GoodSeq g s

theorem goodSeq_extend {g : Game} {s s' : GameSequence} {a : Action}
    (hg : GoodSeq g s) (ha : a ∈ g.sactions)
    (hcp : canPerformAction s.resources a.cost = some true)
    (hap : applyActionSeq g s a = some s') : GoodSeq g s' := by
  obtain ⟨hrep, hmem⟩ := hg
  have hseq : s'.sequence = s.sequence ++ [a] := applyActionSeq_seq hap
  constructor
  · show replaySeq g s'.sequence = some s'
    rw [hseq]
    unfold replaySeq at hrep ⊢
    rw [replaySteps_append, hrep]
    simp [replaySteps, hcp, hap]
  · intro b hb
    rw [hseq, List.mem_append] at hb
    rcases hb with hb | hb
    · exact hmem b hb
    · rw [List.mem_singleton] at hb
      subst hb
      exact ha

/-! ### Nonnegativity (except the decaying kind) along a replay -/

/-- Every quantity is nonnegative, except possibly the decaying kind `H`. -/
def NNexH (d : RDict) : Prop :=
  ∀ (k : Char) (v : Int), findVal d k = some v → k ≠ 'H' → 0 ≤ v

theorem nn_step {g : Game} {s s' : GameSequence} {a : Action}
    (hstart : ∀ (k : Char) (v : Int), findVal g.start k = some v → 0 ≤ v)
    (hcNd : (keysOf a.cost).Nodup)
    (hcnn : ∀ p ∈ a.cost, 0 ≤ p.2) (hrnn : ∀ p ∈ a.reward, 0 ≤ p.2)
    (hnn : NNexH s.resources)
    (hcp : canPerformAction s.resources a.cost = some true)
    (hap : applyActionSeq g s a = some s') : NNexH s'.resources := by
  obtain ⟨r1, r2, h1, h2, hapr, hseq, hcase⟩ := applyActionSeq_cases hap
  have hr1 : ∀ (k : Char) (v : Int), findVal r1 k = some v → k ≠ 'H' → 0 ≤ v := by
    intro k v hv hk
    rw [subCost_findVal hcNd h1 k] at hv
    cases hv0 : findVal s.resources k with
    | none => rw [hv0] at hv; cases hv
    | some v0 =>
      rw [hv0] at hv
      simp only [Option.map_some', Option.some_inj] at hv
      subst hv
      by_cases hkc : k ∈ keysOf a.cost
      · obtain ⟨c, hc⟩ := Option.isSome_iff_exists.1
          ((findVal_isSome_iff a.cost k).2 hkc)
        have hcmem : (k, c) ∈ a.cost := findVal_mem hc
        obtain ⟨w, hw, hcw⟩ := canPerformAction_true_spec hcp (k, c) hcmem
        rw [hv0] at hw
        cases hw
        have : getD0 a.cost k = c := by simp [getD0, hc]
        rw [this]
        exact sub_nonneg.2 hcw
      · rw [getD0_eq_zero_of_not_mem hkc, sub_zero]
        exact hnn k v0 hv0 hk
  have hr2 : NNexH r2 := by
    intro k v hv hk
    obtain ⟨v1, hv1, hle⟩ := addReward_mono hrnn h2 k v hv
    exact le_trans (hr1 k v1 hv1 hk) hle
  rcases hcase with ⟨_, hres⟩ | ⟨_, hadv⟩
  · rw [hres]; exact hr2
  · obtain ⟨hkeys, hother, hAt, hAf, hR, hH⟩ := advanceRound_spec hadv
    intro k v hv hk
    by_cases hkA : k = 'A'
    · subst hkA
      cases hA : hasKey r2 'A' with
      | true =>
        rw [hAt hA] at hv
        exact hstart 'A' v hv
      | false =>
        rw [hAf hA] at hv
        cases hv
    · by_cases hkR : k = 'R'
      · subst hkR
        cases hRp : hasKey r2 'R' with
        | true =>
          rw [hR hRp] at hv
          cases hv
          exact le_refl 0
        | false =>
          exfalso
          have : findVal s'.resources 'R' = none := by
            rw [findVal_eq_none_iff, hkeys]
            intro hc
            exact absurd (((hasKey_iff_mem r2 'R').2 hc).symm.trans hRp)
              (by simp)
          rw [this] at hv
          cases hv
      · rw [hother k hkA hkR hk] at hv
        exact hr2 k v hv hk

theorem replaySteps_nn {g : Game}
    (hstart : ∀ (k : Char) (v : Int), findVal g.start k = some v → 0 ≤ v)
    (hacts : ∀ a ∈ g.sactions, (keysOf a.cost).Nodup ∧
      (∀ p ∈ a.cost, 0 ≤ p.2) ∧ (∀ p ∈ a.reward, 0 ≤ p.2)) :
    ∀ (l : List Action), (∀ a ∈ l, a ∈ g.sactions) →
      ∀ (s s' : GameSequence), NNexH s.resources →
        replaySteps g s l = some s' → NNexH s'.resources := by
  intro l
  induction l with
  | nil =>
    intro _ s s' hnn h
    replace h : some s = some s' := h
    cases h
    exact hnn
  | cons a rest ih =>
    intro hmem s s' hnn h
    replace h : (do
        let cp ← canPerformAction s.resources a.cost
        if !cp then none
        else do
          let s₁ ← applyActionSeq g s a
          replaySteps g s₁ rest) = some s' := h
    cases hcp : canPerformAction s.resources a.cost with
    | none => rw [hcp] at h; cases h
    | some cp =>
      rw [hcp] at h
      simp only [Option.bind_eq_bind, Option.some_bind] at h
      cases cp with
      | false => rw [show (!false) = true from rfl, if_pos rfl] at h; cases h
      | true =>
        rw [show (!true) = false from rfl, if_neg Bool.false_ne_true] at h
        cases hap : applyActionSeq g s a with
        | none => rw [hap] at h; cases h
        | some s₁ =>
          rw [hap] at h
          simp only [Option.some_bind] at h
          have ha : a ∈ g.sactions := hmem a (by left)
          obtain ⟨hcNd, hcnn, hrnn⟩ := hacts a ha
          exact ih (fun b hb => hmem b (List.mem_cons_of_mem _ hb)) s₁ s'
            (nn_step hstart hcNd hcnn hrnn hnn hcp hap) h

/-! ### The search returns only genuinely replayable sequences -/

theorem lookupMemo_mem {memo : List ((Nat × RDict) × Option GameSequence)}
    {key : Nat × RDict} {v : Option GameSequence}
    (h : lookupMemo memo key = some v) : ∃ e ∈ memo, e.2 = v := by
  induction memo with
  | nil => cases h
  | cons e rest ih =>
    unfold lookupMemo at h
    by_cases hk : e.1 = key
    · rw [if_pos hk] at h
      cases h
      exact ⟨e, by left, rfl⟩
    · rw [if_neg hk] at h
      obtain ⟨e', he', hv⟩ := ih h
      exact ⟨e', List.mem_cons_of_mem _ he', hv⟩

theorem mem_insertMemo {memo : List ((Nat × RDict) × Option GameSequence)}
    {key : Nat × RDict} {v : Option GameSequence}
    {e : (Nat × RDict) × Option GameSequence}
    (h : e ∈ insertMemo memo key v) : e ∈ memo ∨ e = (key, v) := by
  induction memo with
  | nil =>
    unfold insertMemo at h
    rw [List.mem_singleton] at h
    exact Or.inr h
  | cons e₀ rest ih =>
    unfold insertMemo at h
    by_cases hk : e₀.1 = key
    · rw [if_pos hk] at h
      rw [List.mem_cons] at h
      rcases h with h | h
      · exact Or.inr h
      · exact Or.inl (List.mem_cons_of_mem _ h)
    · rw [if_neg hk] at h
      rw [List.mem_cons] at h
      rcases h with h | h
      · exact Or.inl (h ▸ List.mem_cons_self _ _)
      · rcases ih h with h' | h'
        · exact Or.inl (List.mem_cons_of_mem _ h')
        · exact Or.inr h'

/-- Everything solution-shaped held by the search context is a genuine
engine trace: each memoised solution and the recorded best. -/
def InvCtx (g : Game) (ctx : SearchCtx) : Prop :=
  (∀ e ∈ ctx.memo, GoodOpt g e.2) ∧ GoodOpt g ctx.best

theorem combineMin_good {g : Game} {ms steps : Option GameSequence}
    (h1 : GoodOpt g ms) (h2 : GoodOpt g steps) :
    GoodOpt g (combineMin ms steps) := by
  unfold combineMin
  cases steps with
  | none => exact h1
  | some s =>
    cases ms with
    | none => exact h2
    | some m =>
      show GoodOpt g
        (if s.sequence.length < m.sequence.length then some s else some m)
      by_cases hl : s.sequence.length < m.sequence.length
      · rw [if_pos hl]
        intro x hx
        cases hx
        exact h2 s rfl
      · rw [if_neg hl]
        intro x hx
        cases hx
        exact h1 m rfl

theorem preChecks_inv {g : Game} {rem : Nat} {state : GameSequence}
    {ctx : SearchCtx} {out : Option GameSequence × SearchCtx}
    (hst : GoodSeq g state) (hctx : InvCtx g ctx)
    (h : preChecks g rem state ctx = some (some out)) :
    InvCtx g out.2 ∧ GoodOpt g out.1 := by
  unfold preChecks at h
  cases hpg : pruneGuard ctx.best state with
  | none => rw [hpg] at h; cases h
  | some pg =>
    rw [hpg] at h
    cases pg with
    | true =>
      simp only [Option.pure_def, Option.bind_eq_bind, Option.some_bind,
        if_true, Option.some_inj] at h
      cases h
      exact ⟨hctx, fun s hs => by cases hs⟩
    | false =>
      simp only [Option.pure_def, Option.bind_eq_bind, Option.some_bind,
        Bool.false_eq_true, if_false] at h
      cases hm : lookupMemo ctx.memo (memoKey rem state.resources) with
      | some v =>
        rw [hm] at h
        simp only [Option.some_inj] at h
        cases h
        refine ⟨hctx, ?_⟩
        obtain ⟨e, he, hev⟩ := lookupMemo_mem hm
        intro s hs
        exact hctx.1 e he s (hev.symm ▸ hs)
      | none =>
        rw [hm] at h
        cases hsv : isSolvedB g.target state.resources with
        | none => rw [hsv] at h; cases h
        | some sv =>
          rw [hsv] at h
          cases sv with
          | false => simp at h
          | true =>
            simp only [Option.pure_def, Option.bind_eq_bind, Option.some_bind,
              if_true, Option.some_inj] at h
            cases h
            refine ⟨⟨hctx.1, ?_⟩, ?_⟩
            · intro s hs
              cases hs
              exact hst
            · intro s hs
              cases hs
              exact hst

theorem loopActs_inv {g : Game}
    {recur : GameSequence → SearchCtx → Option (Option GameSequence × SearchCtx)}
    {state : GameSequence} (hst : GoodSeq g state)
    (hrec : ∀ st ctx out, GoodSeq g st → InvCtx g ctx → recur st ctx = some out →
      InvCtx g out.2 ∧ GoodOpt g out.1) :
    ∀ (l : List Action), (∀ a ∈ l, a ∈ g.sactions) →
      ∀ (ms : Option GameSequence) (ctx : SearchCtx)
        (out : Option GameSequence × SearchCtx),
        InvCtx g ctx → GoodOpt g ms →
        loopActs g recur state l ms ctx = some out →
        InvCtx g out.2 ∧ GoodOpt g out.1 := by
  intro l
  induction l with
  | nil =>
    intro _ ms ctx out hctx hms h
    replace h : some ((ms, ctx) : Option GameSequence × SearchCtx) = some out := h
    cases h
    exact ⟨hctx, hms⟩
  | cons a rest ih =>
    intro hmem ms ctx out hctx hms h
    replace h : (do
        let cp ← canPerformAction state.resources a.cost
        if cp then do
          let st' ← applyActionSeq g state a
          let r ← recur st' ctx
          loopActs g recur state rest (combineMin ms r.1) r.2
        else loopActs g recur state rest ms ctx) = some out := h
    cases hcp : canPerformAction state.resources a.cost with
    | none => rw [hcp] at h; cases h
    | some cp =>
      rw [hcp] at h
      simp only [Option.bind_eq_bind, Option.some_bind] at h
      cases cp with
      | false =>
        rw [if_neg Bool.false_ne_true] at h
        exact ih (fun b hb => hmem b (List.mem_cons_of_mem _ hb)) _ _ _ hctx hms h
      | true =>
        rw [if_pos rfl] at h
        cases hap : applyActionSeq g state a with
        | none => rw [hap] at h; cases h
        | some st' =>
          rw [hap] at h
          simp only [Option.some_bind] at h
          cases hr : recur st' ctx with
          | none => rw [hr] at h; cases h
          | some r =>
            rw [hr] at h
            simp only [Option.some_bind] at h
            have hst' : GoodSeq g st' :=
              goodSeq_extend hst (hmem a (by left)) hcp hap
            obtain ⟨hctx', hr1⟩ := hrec st' ctx r hst' hctx hr
            exact ih (fun b hb => hmem b (List.mem_cons_of_mem _ hb)) _ _ _
              hctx' (combineMin_good hms hr1) h

theorem backtrackN_inv (g : Game) :
    ∀ (rem : Nat) (state : GameSequence) (ctx : SearchCtx)
      (out : Option GameSequence × SearchCtx),
      GoodSeq g state → InvCtx g ctx →
      backtrackN g rem state ctx = some out →
      InvCtx g out.2 ∧ GoodOpt g out.1 := by
  intro rem
  induction rem with
  | zero =>
    intro state ctx out hst hctx h
    unfold backtrackN at h
    cases hpre : preChecks g 0 state ctx with
    | none => rw [hpre] at h; cases h
    | some pre =>
      rw [hpre] at h
      simp only [Option.pure_def, Option.bind_eq_bind, Option.some_bind] at h
      cases pre with
      | some o =>
        simp only [Option.some_inj] at h
        cases h
        exact preChecks_inv hst hctx hpre
      | none =>
        simp only [Option.some_inj] at h
        cases h
        exact ⟨hctx, fun s hs => by cases hs⟩
  | succ r ih =>
    intro state ctx out hst hctx h
    unfold backtrackN at h
    cases hpre : preChecks g (r + 1) state ctx with
    | none => rw [hpre] at h; cases h
    | some pre =>
      rw [hpre] at h
      simp only [Option.pure_def, Option.bind_eq_bind, Option.some_bind] at h
      cases pre with
      | some o =>
        simp only [Option.some_inj] at h
        cases h
        exact preChecks_inv hst hctx hpre
      | none =>
        cases hcbs : canBeSolvedG g state with
        | none => rw [hcbs] at h; cases h
        | some cbs =>
          rw [hcbs] at h
          simp only [Option.some_bind] at h
          cases cbs with
          | false =>
            rw [show (!false) = true from rfl, if_pos rfl] at h
            cases h
            exact ⟨hctx, fun s hs => by cases hs⟩
          | true =>
            rw [show (!true) = false from rfl, if_neg Bool.false_ne_true] at h
            cases hrc : loopActs g (backtrackN g r) state g.sactions none ctx with
            | none => rw [hrc] at h; cases h
            | some rc =>
              rw [hrc] at h
              simp only [Option.some_bind, Option.some_inj] at h
              cases h
              obtain ⟨hctxr, hrc1⟩ :=
                loopActs_inv hst (fun st c o hgs hic hh => ih st c o hgs hic hh)
                  g.sactions (fun a ha => ha) none ctx rc hctx
                  (fun s hs => by cases hs) hrc
              refine ⟨⟨?_, hctxr.2⟩, hrc1⟩
              intro e he
              rcases mem_insertMemo he with he' | he'
              · exact hctxr.1 e he'
              · subst he'
                exact hrc1

theorem findMinSteps_good {g : Game} {out : Option GameSequence × SearchCtx}
    (h : findMinSteps g = some out) : GoodOpt g out.1 := by
  have hroot : GoodSeq g ⟨g.start, []⟩ :=
    ⟨rfl, fun a ha => absurd ha (List.not_mem_nil a)⟩
  have hctx : InvCtx g ⟨[], none⟩ :=
    ⟨fun e he => absurd he (List.not_mem_nil e), fun s hs => by cases hs⟩
  exact (backtrackN_inv g _ _ _ _ hroot hctx h).2

/-! ### Claim C4: amended theorem -/

/-- Claim C4 (amended): for every puzzle with nonnegative start quantities
and well-formed nonnegative action costs and rewards, every sequence
returned by `find_min_steps` replays successfully action by action from the
start vector (each action applicable where taken, the round-boundary
transformation applied at every positive multiple of `actions_per_round`),
and every quantity at every intermediate state is nonnegative — except the
decaying kind `'H'`, which the round-boundary decay `H -= 2` may drive
negative. -/
theorem c4_returned_replay_nonneg {g : Game}
    {out : Option GameSequence × SearchCtx} {s : GameSequence}
    (hstart : ∀ (k : Char) (v : Int), findVal g.start k = some v → 0 ≤ v)
    (hacts : ∀ a ∈ g.actions, (keysOf a.cost).Nodup ∧
      (∀ p ∈ a.cost, 0 ≤ p.2) ∧ (∀ p ∈ a.reward, 0 ≤ p.2))
    (h : findMinSteps g = some out) (hs : out.1 = some s) :
    ∀ pre post, s.sequence = pre ++ post →
      ∃ mid, replaySeq g pre = some mid ∧
        ∀ (k : Char) (v : Int), findVal mid.resources k = some v →
          k ≠ 'H' → 0 ≤ v := by
  intro pre post hsplit
  obtain ⟨hrep, hmem⟩ := findMinSteps_good h s hs
  rw [hsplit] at hrep
  unfold replaySeq at hrep
  rw [replaySteps_append] at hrep
  cases hmid : replaySteps g ⟨g.start, []⟩ pre with
  | none => rw [hmid] at hrep; cases hrep
  | some mid =>
    refine ⟨mid, hmid, ?_⟩
    have hactsS : ∀ a ∈ g.sactions, (keysOf a.cost).Nodup ∧
        (∀ p ∈ a.cost, 0 ≤ p.2) ∧ (∀ p ∈ a.reward, 0 ≤ p.2) :=
      fun a ha => hacts a (mem_sactions.1 ha)
    have hpremem : ∀ a ∈ pre, a ∈ g.sactions := by
      intro a ha
      refine hmem a ?_
      rw [hsplit]
      exact List.mem_append_left _ ha
    have hnn0 : NNexH (⟨g.start, []⟩ : GameSequence).resources :=
      fun k v hv _ => hstart k v hv
    exact replaySteps_nn hstart hactsS pre hpremem _ mid hnn0 hmid

/-- Concrete game for the C4 amended witness. -/
def gC4w : Game := ⟨1, 1, [('P', 1), ('C', 0)], [('C', 1)], [⟨[('P', 1)], [('C', 1)]⟩]⟩

def sC4w : GameSequence := ⟨[('P', 0), ('C', 1)], [⟨[('P', 1)], [('C', 1)]⟩]⟩

/-- Witness for the amended C4 at a concrete input (the full returned
sequence as the replayed prefix). -/
theorem c4_returned_replay_nonneg_witness :
    ∃ mid, replaySeq gC4w [⟨[('P', 1)], [('C', 1)]⟩] = some mid ∧
      ∀ (k : Char) (v : Int), findVal mid.resources k = some v →
        k ≠ 'H' → 0 ≤ v :=
  @c4_returned_replay_nonneg gC4w
    (some sC4w, ⟨[((1, [('C', 0), ('P', 1)]), some sC4w)], some sC4w⟩)
    sC4w
    (by
      intro k v hv
      have hm := findVal_mem hv
      simp only [gC4w, List.mem_cons, List.not_mem_nil, or_false,
        Prod.mk.injEq] at hm
      rcases hm with ⟨-, rfl⟩ | ⟨-, rfl⟩ <;> decide)
    (by decide) (by decide) (by decide)
    [⟨[('P', 1)], [('C', 1)]⟩] [] (by decide)

/-! ### Per-step bounds for the feasibility-soundness proof -/

theorem getD0_nonneg {c : RDict} (hc : ∀ p ∈ c, 0 ≤ p.2) (k : Char) :
    0 ≤ getD0 c k := by
  unfold getD0
  cases hv : findVal c k with
  | none => exact le_refl 0
  | some v => exact hc (k, v) (findVal_mem hv)

theorem maxStep_keys_nodup {m : RDict} (p : Char × Int)
    (h : (keysOf m).Nodup) : (keysOf (maxStep m p)).Nodup := by
  cases hp : findVal m p.1 with
  | none =>
    rw [maxStep_none hp, keysOf_append]
    rw [List.nodup_append]
    refine ⟨h, List.nodup_singleton _, ?_⟩
    intro x hx hx'
    rw [keysOf, List.map_singleton, List.mem_singleton] at hx'
    subst hx'
    rw [findVal_eq_none_iff] at hp
    exact hp hx
  | some v0 =>
    rw [maxStep_some hp]
    by_cases hlt : v0 < p.2
    · rw [if_pos hlt, keysOf_setVal]; exact h
    · rw [if_neg hlt]; exact h

theorem maxResources_keys_nodup (l : List Action) :
    (keysOf (maxResources l)).Nodup := by
  unfold maxResources
  suffices hgen : ∀ (m : RDict), (keysOf m).Nodup →
      (keysOf (l.foldl (fun m a => a.reward.foldl maxStep m) m)).Nodup from
    hgen [] (by simp [keysOf])
  induction l with
  | nil => intro m hm; exact hm
  | cons b rest ih =>
    intro m hm
    rw [List.foldl_cons]
    refine ih _ ?_
    clear ih
    induction b.reward generalizing m with
    | nil => exact hm
    | cons p ps ihp => exact ihp _ (maxStep_keys_nodup p hm)

/-- The kind `'R'` stays nonnegative across one engine step. -/
theorem step_R {g : Game} {s s' : GameSequence} {a : Action}
    (hcNd : (keysOf a.cost).Nodup) (hrnn : ∀ p ∈ a.reward, 0 ≤ p.2)
    (hR : ∀ r, findVal s.resources 'R' = some r → 0 ≤ r)
    (hcp : canPerformAction s.resources a.cost = some true)
    (hap : applyActionSeq g s a = some s') :
    ∀ r, findVal s'.resources 'R' = some r → 0 ≤ r := by
  obtain ⟨r1, r2, h1, h2, hapr, hseq, hcase⟩ := applyActionSeq_cases hap
  have hr1R : ∀ v, findVal r1 'R' = some v → 0 ≤ v := by
    intro v hv
    rw [subCost_findVal hcNd h1 'R'] at hv
    cases hv0 : findVal s.resources 'R' with
    | none => rw [hv0] at hv; cases hv
    | some v0 =>
      rw [hv0] at hv
      simp only [Option.map_some', Option.some_inj] at hv
      subst hv
      by_cases hkc : 'R' ∈ keysOf a.cost
      · obtain ⟨c, hc⟩ := Option.isSome_iff_exists.1
          ((findVal_isSome_iff a.cost 'R').2 hkc)
        obtain ⟨w, hw, hcw⟩ :=
          canPerformAction_true_spec hcp ('R', c) (findVal_mem hc)
        rw [hv0] at hw
        cases hw
        have : getD0 a.cost 'R' = c := by simp [getD0, hc]
        rw [this]
        exact sub_nonneg.2 hcw
      · rw [getD0_eq_zero_of_not_mem hkc, sub_zero]
        exact hR v0 hv0
  have hr2R : ∀ v, findVal r2 'R' = some v → 0 ≤ v := by
    intro v hv
    obtain ⟨v1, hv1, hle⟩ := addReward_mono hrnn h2 'R' v hv
    exact le_trans (hr1R v1 hv1) hle
  rcases hcase with ⟨_, hres⟩ | ⟨_, hadv⟩
  · rw [hres]; exact hr2R
  · obtain ⟨hkeys, _, _, _, hRcl, _⟩ := advanceRound_spec hadv
    intro v hv
    cases hRp : hasKey r2 'R' with
    | true =>
      rw [hRcl hRp] at hv
      cases hv
      exact le_refl 0
    | false =>
      exfalso
      have : findVal s'.resources 'R' = none := by
        rw [findVal_eq_none_iff, hkeys]
        intro hc
        exact absurd (((hasKey_iff_mem r2 'R').2 hc).symm.trans hRp) (by simp)
      rw [this] at hv
      cases hv

/-- Across one engine step, no kind tracked by `max_resources_per_round`
can grow by more than its per-action maximum — provided the astronaut kind
never appears in a reward and `'R'` is nonnegative before the step. -/
theorem step_bound {g : Game} {s s' : GameSequence} {a : Action}
    (ha : a ∈ g.sactions)
    (hcNd : (keysOf a.cost).Nodup) (hrNd : (keysOf a.reward).Nodup)
    (hcnn : ∀ p ∈ a.cost, 0 ≤ p.2)
    (hrnnAll : ∀ b ∈ g.sactions, ∀ p ∈ b.reward, 0 ≤ p.2)
    (hAno : 'A' ∉ keysOf g.maxPerRound)
    (hR : ∀ r, findVal s.resources 'R' = some r → 0 ≤ r)
    (hcp : canPerformAction s.resources a.cost = some true)
    (hap : applyActionSeq g s a = some s')
    {k : Char} {mv : Int} (hmv : findVal g.maxPerRound k = some mv) :
    ∀ v', findVal s'.resources k = some v' →
      ∃ v, findVal s.resources k = some v ∧ v' ≤ v + mv := by
  have hmv0 : 0 ≤ mv := by
    obtain ⟨b, hb, hmem⟩ := maxResources_val_src hmv
    exact hrnnAll b hb (k, mv) hmem
  obtain ⟨r1, r2, h1, h2, hapr, hseq, hcase⟩ := applyActionSeq_cases hap
  have hrd0 : getD0 a.reward k ≤ mv := by
    unfold getD0
    cases hrv : findVal a.reward k with
    | none => exact hmv0
    | some ρ =>
      obtain ⟨w, hw, hρw⟩ := maxResources_entry_bound
        (l := g.sactions) ha (findVal_mem hrv)
      rw [show maxResources g.sactions = g.maxPerRound from rfl, hmv] at hw
      cases hw
      exact hρw
  have hr2b : ∀ v2, findVal r2 k = some v2 →
      ∃ v, findVal s.resources k = some v ∧ v2 ≤ v + mv := by
    intro v2 hv2
    rw [addReward_findVal hrNd h2 k] at hv2
    cases hv1 : findVal r1 k with
    | none => rw [hv1] at hv2; cases hv2
    | some v1 =>
      rw [hv1] at hv2
      simp only [Option.map_some', Option.some_inj] at hv2
      subst hv2
      rw [subCost_findVal hcNd h1 k] at hv1
      cases hv0 : findVal s.resources k with
      | none => rw [hv0] at hv1; cases hv1
      | some v0 =>
        rw [hv0] at hv1
        simp only [Option.map_some', Option.some_inj] at hv1
        subst hv1
        refine ⟨v0, rfl, ?_⟩
        have hc0 : 0 ≤ getD0 a.cost k := getD0_nonneg hcnn k
        linarith
  rcases hcase with ⟨_, hres⟩ | ⟨_, hadv⟩
  · intro v' hv'
    rw [hres] at hv'
    exact hr2b v' hv'
  · obtain ⟨hkeys, hother, hAt, hAf, hRcl, hH⟩ := advanceRound_spec hadv
    intro v' hv'
    have hkA : k ≠ 'A' := by
      intro hk
      subst hk
      exact hAno ((findVal_isSome_iff _ _).1 (by rw [hmv]; rfl))
    by_cases hkR : k = 'R'
    · subst hkR
      have hmemR : 'R' ∈ keysOf r2 := by
        have : 'R' ∈ keysOf s'.resources :=
          (findVal_isSome_iff _ _).1 (by rw [hv']; rfl)
        rw [hkeys] at this
        exact this
      rw [hRcl ((hasKey_iff_mem _ _).2 hmemR)] at hv'
      cases hv'
      have hmemS : 'R' ∈ keysOf s.resources := by
        have h12 : keysOf r2 = keysOf s.resources := by
          rw [addReward_keys h2, subCost_keys h1]
        rw [h12] at hmemR
        exact hmemR
      obtain ⟨v, hv⟩ := Option.isSome_iff_exists.1
        ((findVal_isSome_iff _ _).2 hmemS)
      exact ⟨v, hv, by have := hR v hv; linarith⟩
    · by_cases hkH : k = 'H'
      · subst hkH
        have hmemH : 'H' ∈ keysOf r2 := by
          have : 'H' ∈ keysOf s'.resources :=
            (findVal_isSome_iff _ _).1 (by rw [hv']; rfl)
          rw [hkeys] at this
          exact this
        obtain ⟨h0, hh0⟩ := Option.isSome_iff_exists.1
          ((findVal_isSome_iff _ _).2 hmemH)
        rw [hH h0 hh0] at hv'
        cases hv'
        obtain ⟨v, hv, hle⟩ := hr2b h0 hh0
        exact ⟨v, hv, by linarith⟩
      · rw [hother k hkA hkR hkH] at hv'
        exact hr2b v' hv'

theorem mem_keysOf_of_mem {d : RDict} {p : Char × Int} (h : p ∈ d) :
    p.1 ∈ keysOf d :=
  List.mem_map_of_mem _ h

/-! ### Claim C1: amended theorem -/

/-- Claim C1 (amended): the feasibility bound is sound — it never
classifies a truly reachable state as unreachable — for every puzzle that
obeys the documented resource rules: no action's reward produces the
astronaut kind `'A'` (the source's header: astronauts are only consumed,
restored between rounds), action costs and rewards are well-formed dicts of
nonnegative quantities, the bound's lookups are defined at the state, and
the per-round kind `'R'` is nonnegative in the state.  Then for every state
from which the target is reachable within the remaining move budget
(replaying actions and round-boundary effects exactly as the search engine
does), `can_be_solved` returns `True`.  Without the astronaut restriction
the bound is NOT sound (see the counterexample): the boundary reset of
`'A'` can outrun the per-move bound. -/
theorem c1_feasibility_sound {g : Game}
    (hA : ∀ a ∈ g.actions, 'A' ∉ keysOf a.reward)
    (hacts : ∀ a ∈ g.actions, (keysOf a.cost).Nodup ∧
      (keysOf a.reward).Nodup ∧
      (∀ p ∈ a.cost, 0 ≤ p.2) ∧ (∀ p ∈ a.reward, 0 ≤ p.2))
    {s : GameSequence} {n : Nat} (hreach : ReachSolved g s n)
    (hbud : (n : Int) ≤ remainingMoves g s)
    (hdef : ∀ k ∈ keysOf g.maxPerRound,
      hasKey s.resources k = true ∧ hasKey g.target k = true)
    (hR : ∀ r, findVal s.resources 'R' = some r → 0 ≤ r) :
    canBeSolvedG g s = some true := by
  have hAno : 'A' ∉ keysOf g.maxPerRound := by
    intro hmem
    obtain ⟨a, ha, hk⟩ := mem_keysOf_maxResources.1 hmem
    exact hA a (mem_sactions.1 ha) hk
  have hndmax : (keysOf g.maxPerRound).Nodup := maxResources_keys_nodup _
  have hrnnAll : ∀ b ∈ g.sactions, ∀ p ∈ b.reward, 0 ≤ p.2 :=
    fun b hb => (hacts b (mem_sactions.1 hb)).2.2.2
  revert hbud hdef hR
  induction hreach with
  | @done s n hsol =>
    intro hbud hdef hR
    rw [canBeSolvedG, canBeSolvedRes_eq_all _ _ _ _ hdef]
    refine congrArg some ?_
    rw [List.all_eq_true]
    intro p hp
    rw [decide_eq_true_eq]
    have hpfv : findVal g.maxPerRound p.1 = some p.2 :=
      findVal_of_mem_nodup hp hndmax
    have hp2 : 0 ≤ p.2 := by
      obtain ⟨b, hb, hmem⟩ := maxResources_val_src hpfv
      exact hrnnAll b hb _ hmem
    obtain ⟨hks, hkt⟩ := hdef p.1 (mem_keysOf_of_mem hp)
    obtain ⟨tv, htv⟩ := Option.isSome_iff_exists.1 hkt
    obtain ⟨w, hw, htw⟩ :=
      canPerformAction_true_spec hsol (p.1, tv) (findVal_mem htv)
    have e1 : getD0 g.target p.1 = tv := by simp [getD0, htv]
    have e2 : getD0 s.resources p.1 = w := by simp [getD0, hw]
    rw [e1, e2]
    have hrem : 0 ≤ remainingMoves g s :=
      le_trans (Int.natCast_nonneg n) hbud
    have := mul_nonneg hrem hp2
    linarith
  | @step s s' n a ha hcp happ hr ih =>
    intro hbud hdef hR
    have haorig := mem_sactions.1 ha
    obtain ⟨hcNd, hrNd, hcnn, hrnn⟩ := hacts a haorig
    have hseq : s'.sequence = s.sequence ++ [a] := applyActionSeq_seq happ
    have hkeys' : keysOf s'.resources = keysOf s.resources :=
      applyActionSeq_keys happ
    have hdef' : ∀ k ∈ keysOf g.maxPerRound,
        hasKey s'.resources k = true ∧ hasKey g.target k = true := by
      intro k hk
      obtain ⟨h1, h2⟩ := hdef k hk
      refine ⟨?_, h2⟩
      rw [hasKey_iff_mem, hkeys', ← hasKey_iff_mem]
      exact h1
    have hR' := step_R hcNd hrnn hR hcp happ
    have hrem' : remainingMoves g s' = remainingMoves g s - 1 := by
      unfold remainingMoves
      rw [hseq, List.length_append, List.length_singleton]
      push_cast
      ring
    have hbud' : (n : Int) ≤ remainingMoves g s' := by
      rw [hrem']
      push_cast at hbud
      linarith
    have hcbs' := ih hbud' hdef' hR'
    rw [canBeSolvedG, canBeSolvedRes_eq_all _ _ _ _ hdef'] at hcbs'
    have hall' := Option.some_inj.1 hcbs'
    rw [List.all_eq_true] at hall'
    rw [canBeSolvedG, canBeSolvedRes_eq_all _ _ _ _ hdef]
    refine congrArg some ?_
    rw [List.all_eq_true]
    intro p hp
    rw [decide_eq_true_eq]
    have hck' := hall' p hp
    rw [decide_eq_true_eq] at hck'
    have hpfv : findVal g.maxPerRound p.1 = some p.2 :=
      findVal_of_mem_nodup hp hndmax
    obtain ⟨hks', _⟩ := hdef' p.1 (mem_keysOf_of_mem hp)
    obtain ⟨v', hv'⟩ := Option.isSome_iff_exists.1 hks'
    obtain ⟨v, hv, hvb⟩ :=
      step_bound ha hcNd hrNd hcnn hrnnAll hAno hR hcp happ hpfv v' hv'
    have e1 : getD0 s'.resources p.1 = v' := by simp [getD0, hv']
    have e2 : getD0 s.resources p.1 = v := by simp [getD0, hv]
    rw [e2]
    rw [e1, hrem'] at hck'
    have hexp : (remainingMoves g s - 1) * p.2 =
        remainingMoves g s * p.2 - p.2 := by ring
    rw [hexp] at hck'
    linarith

/-- Concrete game for the C1 amended witness. -/
def gC1w : Game := ⟨1, 1, [('P', 2), ('C', 0)], [('C', 1)], [⟨[('P', 1)], [('C', 1)]⟩]⟩

/-- Witness for the amended C1 at a concrete input: the start state can
reach the target in one move, and the bound indeed reports `True`. -/
theorem c1_feasibility_sound_witness :
    canBeSolvedG gC1w ⟨gC1w.start, []⟩ = some true :=
  c1_feasibility_sound (g := gC1w) (n := 1) (by decide) (by decide)
    (@ReachSolved.step gC1w ⟨gC1w.start, []⟩
      ⟨[('P', 1), ('C', 1)], [⟨[('P', 1)], [('C', 1)]⟩]⟩ 0
      ⟨[('P', 1)], [('C', 1)]⟩
      (by decide) (by decide) (by decide) (ReachSolved.done (by decide)))
    (by decide) (by decide)
    (by intro r hr; cases hr)

end RocketSolver
